import Mathlib

/-!
Verification development for a small Notion-style workspace application.

The application keeps its whole state in one JSON-persisted dictionary
`DATA : Dict[str, dict]` mapping page ids to page records with fields
`title`, `content`, `children` (ordered list of child page ids) and
`database` (ordered list of string-to-string rows).  Python dictionaries
preserve insertion order, so the state is modelled as an ordered
association list from ids to page records.

Python string operations used by the code (`str.strip`, `str.replace`
with one-character patterns, `str.startswith`, `str.split("\n")`,
`"\n".join`) are modelled by executable functions on the character
lists underlying Lean strings, because they must evaluate on concrete
inputs inside the kernel.
-/

namespace NotionApp

/-- Characters treated as whitespace by Python `str.strip()` (the ASCII
whitespace characters; the application only ever strips titles and form
values, for which this is the relevant set). -/
def pyIsSpace (c : Char) : Bool :=
  c = ' ' || c = '\t' || c = '\n' || c = '\r' || c = '\x0b' || c = '\x0c'

/-- Remove leading and trailing whitespace from a character list. -/
def stripChars (cs : List Char) : List Char :=
  ((cs.dropWhile pyIsSpace).reverse.dropWhile pyIsSpace).reverse

/-- Model of Python `s.strip()`. -/
def pyStrip (s : String) : String := String.mk (stripChars s.data)

/-- Model of Python `s.replace(c, r)` for a one-character pattern `c`
(the only form the code uses, in `html_escape`). -/
def replaceChar (s : String) (c : Char) (r : String) : String :=
  String.mk (s.data.flatMap (fun ch => if ch = c then r.data else [ch]))

/-- Model of Python `s.startswith(pre)`. -/
def startsWithStr (s pre : String) : Bool := pre.data.isPrefixOf s.data

/-- Split a character list at newline characters; `splitNl` of the empty
list is `[[]]`, matching Python `"".split("\n") == [""]`. -/
def splitNl : List Char → List (List Char)
  | [] => [[]]
  | c :: cs =>
    if c = '\n' then [] :: splitNl cs
    else
      match splitNl cs with
      | [] => [[c]]
      | l :: ls => (c :: l) :: ls

/-- Model of Python `raw.split("\n")`. -/
def splitLines (s : String) : List String := (splitNl s.data).map String.mk

/-- Model of Python `"\n".join(parts)`. -/
def joinLines : List String → String
  | [] => ""
  | [s] => s
  | s :: rest => s ++ "\n" ++ joinLines rest

/-- Model of dropping the first `n` characters of a string (used for the
text captured by the checklist regular expressions after their 6-character
literal prefixes). -/
def dropStr (s : String) (n : Nat) : String := String.mk (s.data.drop n)

/-- One row of a page's ad-hoc database: an insertion-ordered mapping
from column names to cell values, modelled as an association list. -/
abbrev Row := List (String × String)

/-- A page record, with the fields stored in `DATA` for every page id. -/
structure Page where
  title : String
  content : String
  children : List String
  database : List Row
deriving DecidableEq

/-- The whole workspace `DATA`: an insertion-ordered dictionary from page
ids to page records, modelled as an association list. -/
abbrev Workspace := List (String × Page)

/-- The page ids present in the workspace, in iteration order. -/
def keys (w : Workspace) : List String := w.map (fun e => e.1)

/-- All ids appearing in any page's `children` list. -/
def allChildren (w : Workspace) : List String :=
  (w.map (fun e => e.2.children)).flatten

/-- Dictionary lookup `DATA[k]` (first matching key). -/
def lookupW : Workspace → String → Option Page
  | [], _ => none
  | e :: rest, k => if e.1 = k then some e.2 else lookupW rest k

/-- The `children` list of page `pid`, empty when `pid` is absent
(the code only reads it under a membership guard). -/
def childrenOf (w : Workspace) (pid : String) : List String :=
  match lookupW w pid with
  | some p => p.children
  | none => []

/-- In-place update of the entry at key `k`, as Python mutates
`DATA[k]` without changing the dictionary's insertion order. -/
def mapEntry (w : Workspace) (k : String) (f : Page → Page) : Workspace :=
  w.map (fun e => if e.1 = k then (e.1, f e.2) else e)

/-- Model of `title.strip() or "Untitled"`: a stripped-empty title falls
back to the placeholder. -/
def titleOrUntitled (t : String) : String :=
  if pyStrip t = "" then "Untitled" else pyStrip t

/-- Embedding of `add_page(title, parent_id)`.  The fresh id produced by
`uuid.uuid4()` is passed in as the `pageId` argument.  The new record is
inserted at the end (a fresh dictionary key), and if `parent_id` is
truthy (a non-empty string) and a key of the dictionary, the new id is
appended to the parent's `children`.  Returns the new id with the
resulting workspace, as the route returns `page_id`. -/
def add_page (w : Workspace) (pageId title : String) (parentId : Option String) :
    String × Workspace :=
  let w1 := w ++ [(pageId, ⟨titleOrUntitled title, "", [], []⟩)]
  let w2 :=
    match parentId with
    | some pid =>
      if pid ≠ "" ∧ pid ∈ keys w1 then
        mapEntry w1 pid (fun p => { p with children := p.children ++ [pageId] })
      else w1
    | none => w1
  (pageId, w2)

/-- Embedding of `update_page(page_id, title, content)`.  The Boolean
records whether `save_data` ran: the code persists only inside the
`if page_id in DATA` branch. -/
def update_page (w : Workspace) (pageId title content : String) : Workspace × Bool :=
  if pageId ∈ keys w then
    (mapEntry w pageId
        (fun p => { p with title := titleOrUntitled title, content := content }),
      true)
  else (w, false)

/-- Model of Python `list.remove(x)` under its `if x in list` guard:
drop the first occurrence, and leave the list unchanged when absent. -/
def eraseFirst : List String → String → List String
  | [], _ => []
  | c :: cs, x => if c = x then cs else c :: eraseFirst cs x

/-- The scan in `delete_page` that removes `page_id` from every page's
`children` list (one `list.remove` per page, guarded by membership). -/
def scrubChildren (w : Workspace) (pid : String) : Workspace :=
  w.map (fun e => (e.1, { e.2 with children := eraseFirst e.2.children pid }))

/-- Model of `DATA.pop(page_id, None)`: drop the entry with that key. -/
def eraseKey : Workspace → String → Workspace
  | [], _ => []
  | e :: rest, pid => if e.1 = pid then eraseKey rest pid else e :: eraseKey rest pid

/-- Embedding of the recursive `delete_page(page_id)` with explicit fuel
for the recursion (Python recurses without bound; every well-formed call
tree is shallower than the workspace, and the wrapper below supplies that
much fuel).  The second component counts `save_data` calls: the code
saves once per completed call and not at all on the unknown-id early
return. -/
def delete_page_fuel : Nat → Workspace → String → Workspace × Nat
  | 0, w, _ => (w, 0)
  | Nat.succ n, w, pid =>
    if pid ∈ keys w then
      let cs := childrenOf w pid
      let r := cs.foldl
        (fun acc c =>
          let s := delete_page_fuel n acc.1 c
          (s.1, acc.2 + s.2))
        (w, 0)
      (eraseKey (scrubChildren r.1 pid) pid, r.2 + 1)
    else (w, 0)

/-- `delete_page` as called by the routes. -/
def delete_page (w : Workspace) (pid : String) : Workspace × Nat :=
  delete_page_fuel w.length w pid

/-- A node of the sidebar tree produced by `get_page_tree`:
`{"id": pid, "title": .., "children": [...]}`. -/
inductive Node where
  | mk : String → String → List Node → Node

/-- The id of a tree node. -/
def Node.nid : Node → String
  | .mk i _ _ => i

/-- The title of a tree node. -/
def Node.ntitle : Node → String
  | .mk _ t _ => t

/-- The child nodes of a tree node. -/
def Node.nchildren : Node → List Node
  | .mk _ _ cs => cs

/-- Build a list of nodes, failing as soon as one build fails
(a failed dictionary lookup in the Python code raises `KeyError`). -/
def seqNodes (f : String → Option Node) : List String → Option (List Node)
  | [] => some []
  | c :: cs =>
    match f c with
    | none => none
    | some nd =>
      match seqNodes f cs with
      | none => none
      | some ns => some (nd :: ns)

/-- Embedding of `build_node(pid)`: look the page up (`DATA[pid]` raises
`KeyError`, modelled as `none`, when the id is dangling) and recursively
build the children in stored order.  Fuel models the unbounded Python
recursion. -/
def buildNode : Nat → Workspace → String → Option Node
  | 0, _, _ => none
  | Nat.succ n, w, pid =>
    match lookupW w pid with
    | none => none
    | some p =>
      match seqNodes (fun c => buildNode n w c) p.children with
      | none => none
      | some ns => some (Node.mk pid p.title ns)

/-- The root ids: pages that are not children of any other page, in
workspace iteration order. -/
def rootIds (w : Workspace) : List String :=
  (keys w).filter (fun pid => decide (pid ∉ allChildren w))

/-- Embedding of `get_page_tree()`: build one tree per root id.  The
fuel `w.length` covers every acyclic workspace, since a children path
visits distinct keys. -/
def get_page_tree (w : Workspace) : Option (List Node) :=
  seqNodes (buildNode w.length w) (rootIds w)

/-- The possible contents of the persisted `pages.json` as `load_data`
distinguishes them: no file, a file whose parse raises
`json.JSONDecodeError`, or a parsed workspace. -/
inductive PersistedFile where
  | absent : PersistedFile
  | unparsable : PersistedFile
  | parsed : Workspace → PersistedFile

/-- The fabricated fresh workspace: a single root page titled "Home",
keyed by a fresh `uuid.uuid4()` id. -/
def homeWorkspace (rootId : String) : Workspace :=
  [(rootId, ⟨"Home", "Welcome to your Notion‑style workspace!", [], []⟩)]

/-- Embedding of `load_data()`.  The fresh root id is passed in for the
fabrication branch.  The second component is the workspace written back
by the `save_data` call on that branch (`none` when nothing is written:
the parsed-file branch returns without saving). -/
def load_data (file : PersistedFile) (rootId : String) : Workspace × Option Workspace :=
  match file with
  | .parsed w => (w, none)
  | .absent => (homeWorkspace rootId, some (homeWorkspace rootId))
  | .unparsable => (homeWorkspace rootId, some (homeWorkspace rootId))

/-- An HTTP response as far as the data layer is concerned: the route
only ever produces `RedirectResponse(url=location, status_code=status)`. -/
structure Resp where
  status : Nat
  location : String
deriving DecidableEq

/-- An error response in the HTTP sense: a 4xx or 5xx status. -/
def Resp.isError (r : Resp) : Prop := 400 ≤ r.status

instance decRespIsError (r : Resp) : Decidable r.isError := by
  unfold Resp.isError
  infer_instance

/-- Association-list lookup for form fields. -/
def lookupF : List (String × String) → String → Option String
  | [], _ => none
  | e :: rest, k => if e.1 = k then some e.2 else lookupF rest k

/-- Model of `form.get(k, [""])[0]`. -/
def formGet (form : List (String × String)) (k : String) : String :=
  match lookupF form k with
  | some v => v
  | none => ""

/-- Model of Python dictionary assignment `row[k] = v`: overwrite in
place when the key exists, otherwise append. -/
def dictSet (r : Row) (k v : String) : Row :=
  if k ∈ r.map (fun e => e.1) then
    r.map (fun e => if e.1 = k then (k, v) else e)
  else r ++ [(k, v)]

/-- The row-building loop of `add_db_row`: every form field except the
special `new_col`/`new_val` pair contributes its stripped value when that
value is non-empty. -/
def buildRow (form : List (String × String)) : Row :=
  form.foldl
    (fun row e =>
      if e.1 = "new_col" ∨ e.1 = "new_val" then row
      else if pyStrip e.2 ≠ "" then dictSet row e.1 (pyStrip e.2) else row)
    []

/-- Embedding of the `add_db_row` route body after login: on an unknown
page id it returns `RedirectResponse("/", 302)` before touching anything;
otherwise it builds the row from the form, optionally adds the
`new_col`/`new_val` column, appends the row to the page's database and
redirects to the page's database view. -/
def add_db_row (w : Workspace) (pageId : String) (form : List (String × String)) :
    Workspace × Resp :=
  if pageId ∈ keys w then
    let newCol := pyStrip (formGet form "new_col")
    let newVal := pyStrip (formGet form "new_val")
    let row := buildRow form
    let row2 := if newCol ≠ "" then dictSet row newCol newVal else row
    (mapEntry w pageId (fun p => { p with database := p.database ++ [row2] }),
      ⟨302, "/page/" ++ pageId ++ "/database"⟩)
  else (w, ⟨302, "/"⟩)

/-- Embedding of `html_escape`: the chain of five `str.replace` calls of
the source, in source order (`&` first, so the ampersands introduced by
the later replacements are not re-escaped). -/
def html_escape (text : String) : String :=
  replaceChar
    (replaceChar
      (replaceChar
        (replaceChar
          (replaceChar text '&' "&amp;")
          '<' "&lt;")
        '>' "&gt;")
      '"' "&quot;")
    '\x27' "&#39;"

/-- One iteration of the `render_content` loop: given the `in_code` flag
and the current line, produce the next flag and the emitted parts. -/
def processLine (inCode : Bool) (line : String) : Bool × List String :=
  if startsWithStr (pyStrip line) "```" then
    (!inCode, [if inCode then "</code></pre>" else "<pre><code>"])
  else if inCode then
    (inCode, [html_escape line ++ "\n"])
  else if startsWithStr line "- [ ] " then
    (inCode,
      ["<label><input type=\"checkbox\" disabled> " ++ html_escape (dropStr line 6) ++
        "</label><br>"])
  else if startsWithStr line "- [x] " || startsWithStr line "- [X] " then
    (inCode,
      ["<label><input type=\"checkbox\" checked disabled> " ++
        html_escape (dropStr line 6) ++ "</label><br>"])
  else
    (inCode, ["<p>" ++ html_escape line ++ "</p>"])

/-- Embedding of `render_content(raw)`: split into lines, run the
stateful loop from `in_code = False`, join the parts with newlines. -/
def render_content (raw : String) : String :=
  let r := (splitLines raw).foldl
    (fun acc line =>
      let s := processLine acc.1 line
      (s.1, acc.2 ++ s.2))
    (false, ([] : List String))
  joinLines r.2

/-- The tree-mutating operations named by the invariant claims, with the
`uuid.uuid4()` result of an add passed explicitly. -/
inductive Op where
  | addP : String → String → Option String → Op
  | delP : String → Op

/-- Apply one operation to the workspace. -/
def applyOp (w : Workspace) : Op → Workspace
  | .addP pid title parent => (add_page w pid title parent).2
  | .delP pid => (delete_page w pid).1

/-- Apply a sequence of operations left to right. -/
def applyOps (w : Workspace) (ops : List Op) : Workspace := ops.foldl applyOp w

/-- Side condition on an operation: the id handed to an add is fresh
(`uuid.uuid4()` never collides with an existing key and is unknowable to
the caller beforehand, so it is never passed as the parent). -/
def freshOk (w : Workspace) : Op → Prop
  | .addP pid _ parent => pid ∉ keys w ∧ parent ≠ some pid
  | .delP _ => True

/-- Every add along the sequence uses a fresh id. -/
def freshAlong : Workspace → List Op → Prop
  | _, [] => True
  | w, op :: ops => freshOk w op ∧ freshAlong (applyOp w op) ops

/-- One parent-to-child link of the workspace graph. -/
def edge (w : Workspace) (y z : String) : Prop :=
  ∃ p, lookupW w y = some p ∧ z ∈ p.children

/-- Reachability along `children` links (reflexive-transitive). -/
inductive Reaches (w : Workspace) : String → String → Prop where
  | refl : ∀ x, Reaches w x x
  | tail : ∀ x y z, Reaches w x y → edge w y z → Reaches w x z

/-- One forward pass that accumulates children of already-collected ids;
on workspaces whose children point later in iteration order this collects
exactly the ids reachable from the seed set. -/
def collectReach : Workspace → List String → List String
  | [], acc => acc
  | e :: rest, acc => collectReach rest (if e.1 ∈ acc then acc ++ e.2.children else acc)

/-- The ids collected from seed `x`: on well-formed workspaces, `x`
together with everything reachable from it. -/
def desc (w : Workspace) (x : String) : List String := collectReach w [x]

/-- Drop every page whose id lies in `s` and drop members of `s` from
every surviving `children` list: the specification form of a recursive
deletion of the closed id set `s`. -/
def removeIds (w : Workspace) (s : List String) : Workspace :=
  (w.filter (fun e => decide (e.1 ∉ s))).map
    (fun e => (e.1, { e.2 with children := e.2.children.filter (fun c => decide (c ∉ s)) }))

/-- Every page's children lie strictly later in iteration order.  This is
the order `add_page` creates (a child is always inserted after its
parent) and it implies both that no child reference dangles and that the
children graph is acyclic. -/
def ordered : Workspace → Prop
  | [] => True
  | e :: rest => (∀ c ∈ e.2.children, c ∈ keys rest) ∧ ordered rest

/-- No dangling child references: every id in any `children` list is a
key of the workspace. -/
def noDangling (w : Workspace) : Prop := ∀ c ∈ allChildren w, c ∈ keys w

/-- Well-formedness of a workspace: distinct keys, no id referenced twice
across all `children` lists, and children strictly later than their
parent in iteration order. -/
def wf (w : Workspace) : Prop :=
  (keys w).Nodup ∧ (allChildren w).Nodup ∧ ordered w

/-- The strict tail of the workspace after the first entry keyed `x`
(empty when `x` is no key). -/
def tailAfter : Workspace → String → Workspace
  | [], _ => []
  | e :: rest, x => if e.1 = x then rest else tailAfter rest x

mutual

/-- All page ids appearing in a tree node (the node itself and its
descendants), in preorder. -/
def nodeIds : Node → List String
  | .mk i _ cs => i :: nodeIdsList cs

/-- All page ids appearing in a list of tree nodes. -/
def nodeIdsList : List Node → List String
  | [] => []
  | n :: ns => nodeIds n ++ nodeIdsList ns

end

instance decOrdered : (w : Workspace) → Decidable (ordered w)
  | [] => .isTrue trivial
  | e :: rest =>
    have h1 : Decidable (∀ c ∈ e.2.children, c ∈ keys rest) := inferInstance
    have h2 : Decidable (ordered rest) := decOrdered rest
    @instDecidableAnd _ _ h1 h2

instance decNoDangling (w : Workspace) : Decidable (noDangling w) := by
  unfold noDangling; infer_instance

instance decWf (w : Workspace) : Decidable (wf w) := by
  unfold wf; infer_instance

instance decFreshOk (w : Workspace) : (op : Op) → Decidable (freshOk w op)
  | .addP pid _ parent => by unfold freshOk; infer_instance
  | .delP _ => .isTrue trivial

instance decFreshAlong : (w : Workspace) → (ops : List Op) → Decidable (freshAlong w ops)
  | _, [] => .isTrue trivial
  | w, op :: ops =>
    have h1 : Decidable (freshOk w op) := inferInstance
    have h2 : Decidable (freshAlong (applyOp w op) ops) := decFreshAlong _ ops
    @instDecidableAnd _ _ h1 h2

/-- A small concrete workspace used to instantiate the theorems: a root
with one child that has two leaf children. -/
def wEx : Workspace :=
  [("r", ⟨"Home", "", ["a"], []⟩),
   ("a", ⟨"A", "", ["b", "c"], []⟩),
   ("b", ⟨"B", "", [], []⟩),
   ("c", ⟨"C", "", [], []⟩)]

/-- A workspace with a duplicated child reference: dangling-free and
acyclic, but listing the id "b" twice in one `children` list. -/
def wDup : Workspace :=
  [("a", ⟨"A", "", ["b", "b"], []⟩),
   ("b", ⟨"B", "", [], []⟩)]

/-! Basic lemmas on the dictionary model. -/

theorem keys_append (w v : Workspace) : keys (w ++ v) = keys w ++ keys v := by
  simp [keys]

theorem mem_keys {w : Workspace} {k : String} :
    k ∈ keys w ↔ ∃ p, (k, p) ∈ w := by
  constructor
  · intro h
    rcases List.mem_map.mp h with ⟨e, he, hk⟩
    exact ⟨e.2, by simpa [← hk] using he⟩
  · rintro ⟨p, hp⟩
    exact List.mem_map.mpr ⟨(k, p), hp, rfl⟩

theorem lookupW_eq_none {w : Workspace} {k : String} :
    lookupW w k = none ↔ k ∉ keys w := by
  induction w with
  | nil => simp [lookupW, keys]
  | cons e rest ih =>
    by_cases h : e.1 = k <;> simp [lookupW, keys, h, ih, Ne.symm]

theorem lookupW_isSome {w : Workspace} {k : String} (h : k ∈ keys w) :
    ∃ p, lookupW w k = some p := by
  cases hl : lookupW w k with
  | none => exact absurd h (lookupW_eq_none.mp hl)
  | some p => exact ⟨p, rfl⟩

theorem lookupW_mem {w : Workspace} {k : String} {p : Page}
    (h : lookupW w k = some p) : (k, p) ∈ w := by
  induction w with
  | nil => simp [lookupW] at h
  | cons e rest ih =>
    by_cases he : e.1 = k
    · simp [lookupW, he] at h
      subst he h
      exact List.mem_cons_self _ _
    · simp [lookupW, he] at h
      exact List.mem_cons_of_mem _ (ih h)

theorem lookupW_mem_keys {w : Workspace} {k : String} {p : Page}
    (h : lookupW w k = some p) : k ∈ keys w :=
  mem_keys.mpr ⟨p, lookupW_mem h⟩

theorem mem_lookupW {w : Workspace} {k : String} {p : Page}
    (hnd : (keys w).Nodup) (h : (k, p) ∈ w) : lookupW w k = some p := by
  induction w with
  | nil => simp at h
  | cons e rest ih =>
    simp only [keys, List.map_cons, List.nodup_cons] at hnd
    rcases List.mem_cons.mp h with h | h
    · simp [lookupW, ← h]
    · have hk : k ∈ keys rest := mem_keys.mpr ⟨p, h⟩
      have hne : e.1 ≠ k := fun he => hnd.1 (he ▸ hk)
      simpa [lookupW, hne] using ih hnd.2 h

theorem mem_allChildren {w : Workspace} {c : String} :
    c ∈ allChildren w ↔ ∃ e ∈ w, c ∈ e.2.children := by
  simp only [allChildren, List.mem_flatten, List.mem_map]
  constructor
  · rintro ⟨l, ⟨e, he, rfl⟩, hc⟩
    exact ⟨e, he, hc⟩
  · rintro ⟨e, he, hc⟩
    exact ⟨e.2.children, ⟨e, he, rfl⟩, hc⟩

theorem allChildren_append (w v : Workspace) :
    allChildren (w ++ v) = allChildren w ++ allChildren v := by
  simp [allChildren]

theorem keys_mapEntry (w : Workspace) (k : String) (f : Page → Page) :
    keys (mapEntry w k f) = keys w := by
  induction w with
  | nil => rfl
  | cons e rest ih =>
    by_cases h : e.1 = k <;> simp [mapEntry, keys, h] <;>
      simpa [mapEntry, keys] using ih

theorem mapEntry_of_not_mem {w : Workspace} {k : String} (f : Page → Page)
    (h : k ∉ keys w) : mapEntry w k f = w := by
  induction w with
  | nil => rfl
  | cons e rest ih =>
    have h1 : e.1 ≠ k := fun he => h (by simp [keys, he])
    have h2 : k ∉ keys rest := fun hk => h (by simp [keys]; exact Or.inr (by simpa [keys] using hk))
    have ht := ih h2
    simp only [mapEntry, List.map_cons] at ht ⊢
    rw [if_neg h1, ht]

theorem lookupW_mapEntry (w : Workspace) (k j : String) (f : Page → Page) :
    lookupW (mapEntry w k f) j =
      if j = k then (lookupW w j).map f else lookupW w j := by
  induction w with
  | nil => by_cases hjk : j = k <;> simp [mapEntry, lookupW, hjk]
  | cons e rest ih =>
    simp only [mapEntry, List.map_cons] at ih ⊢
    by_cases hek : e.1 = k
    · by_cases hjk : j = k
      · have he1j : e.1 = j := by rw [hek, hjk]
        simp [lookupW, hek, hjk, he1j]
      · have he1j : e.1 ≠ j := fun h => hjk (h.symm.trans hek)
        have hkj : ¬k = j := fun h => hjk h.symm
        simp [lookupW, hek, hjk, he1j, hkj, ih]
    · by_cases hej : e.1 = j
      · have hjk : j ≠ k := fun h => hek (hej.trans h)
        simp [lookupW, hek, hej, hjk]
      · simp [lookupW, hek, hej, ih]

theorem eraseKey_eq_filter (w : Workspace) (pid : String) :
    eraseKey w pid = w.filter (fun e => decide (e.1 ≠ pid)) := by
  induction w with
  | nil => rfl
  | cons e rest ih =>
    by_cases h : e.1 = pid <;> simp [eraseKey, h, ih]

theorem keys_eraseKey (w : Workspace) (pid : String) :
    keys (eraseKey w pid) = (keys w).filter (fun k => decide (k ≠ pid)) := by
  rw [eraseKey_eq_filter]
  induction w with
  | nil => rfl
  | cons e rest ih =>
    by_cases h : e.1 = pid <;> simp [keys, h, List.filter_cons] <;>
      simpa [keys] using ih

theorem filter_ne_of_not_mem {cs : List String} {x : String} (h : x ∉ cs) :
    cs.filter (fun c => decide (c ≠ x)) = cs :=
  List.filter_eq_self.mpr (fun a ha => by
    simp only [decide_eq_true_eq]
    exact fun he => h (he ▸ ha))

theorem eraseFirst_eq_filter {cs : List String} (x : String) (h : cs.Nodup) :
    eraseFirst cs x = cs.filter (fun c => decide (c ≠ x)) := by
  induction cs with
  | nil => rfl
  | cons c cs ih =>
    rcases List.nodup_cons.mp h with ⟨hc, hcs⟩
    by_cases hx : c = x
    · have hxc : x ∉ cs := hx ▸ hc
      have hflt : cs.filter (fun c => decide (c ≠ x)) = cs :=
        List.filter_eq_self.mpr fun a ha => by
          simp only [decide_eq_true_eq]
          exact fun he => hxc (he ▸ ha)
      rw [show eraseFirst (c :: cs) x = cs by simp [eraseFirst, hx],
        List.filter_cons, if_neg (by simp [hx]), hflt]
    · simp [eraseFirst, hx, ih hcs, List.filter_cons]

theorem tailAfter_length_lt {w : Workspace} {x : String} (h : x ∈ keys w) :
    (tailAfter w x).length < w.length := by
  induction w with
  | nil => simp [keys] at h
  | cons e rest ih =>
    by_cases he : e.1 = x
    · simp only [tailAfter, if_pos he, List.length_cons]
      omega
    · have hx : x ∈ keys rest := by
        rcases List.mem_cons.mp h with h | h
        · exact absurd h.symm he
        · exact h
      have := ih hx
      simp only [tailAfter, if_neg he, List.length_cons]
      omega

theorem keys_tailAfter_sublist (w : Workspace) (x : String) :
    List.Sublist (keys (tailAfter w x)) (keys w) := by
  induction w with
  | nil => simp [tailAfter]
  | cons e rest ih =>
    by_cases he : e.1 = x
    · simp only [tailAfter, if_pos he]
      exact List.Sublist.cons _ (List.Sublist.refl _)
    · simp only [tailAfter, if_neg he]
      exact List.Sublist.cons _ ih

/-! Lemmas on the well-formedness invariant. -/

theorem keys_cons (e : String × Page) (rest : Workspace) :
    keys (e :: rest) = e.1 :: keys rest := rfl

theorem mapEntry_cons (e : String × Page) (w : Workspace) (k : String) (f : Page → Page) :
    mapEntry (e :: w) k f = (if e.1 = k then (e.1, f e.2) else e) :: mapEntry w k f := by
  simp only [mapEntry, List.map_cons]

theorem ordered_cons_iff (e : String × Page) (rest : Workspace) :
    ordered (e :: rest) ↔ (∀ c ∈ e.2.children, c ∈ keys rest) ∧ ordered rest := Iff.rfl

theorem allChildren_cons (e : String × Page) (rest : Workspace) :
    allChildren (e :: rest) = e.2.children ++ allChildren rest := rfl

theorem ordered_noDangling {w : Workspace} (h : ordered w) : noDangling w := by
  induction w with
  | nil => intro c hc; simp [allChildren] at hc
  | cons e rest ih =>
    intro c hc
    rw [allChildren_cons] at hc
    rcases List.mem_append.mp hc with hc | hc
    · exact List.mem_cons_of_mem _ (h.1 c hc)
    · exact List.mem_cons_of_mem _ (ih h.2 c hc)

theorem ordered_append_leaf {w : Workspace} (h : ordered w) (pid : String) (pg : Page)
    (hch : pg.children = []) : ordered (w ++ [(pid, pg)]) := by
  induction w with
  | nil => simp [ordered, hch]
  | cons e rest ih =>
    rw [List.cons_append, ordered_cons_iff]
    refine ⟨fun c hc => ?_, ih h.2⟩
    rw [keys_append]
    exact List.mem_append_left _ (h.1 c hc)

theorem ordered_mapEntry_appendLast {w : Workspace} (nid : String) (pg : Page)
    (p : String) (h : ordered (w ++ [(nid, pg)])) (hne : p ≠ nid) :
    ordered (mapEntry (w ++ [(nid, pg)]) p
      (fun q => { q with children := q.children ++ [nid] })) := by
  induction w with
  | nil =>
    have hnp : nid ≠ p := fun he => hne he.symm
    simpa [mapEntry, hnp] using h
  | cons e rest ih =>
    rw [List.cons_append] at h ⊢
    have h1 := h.1
    have h2 := h.2
    rw [mapEntry_cons, ordered_cons_iff, keys_mapEntry]
    by_cases he : e.1 = p
    · rw [if_pos he]
      refine ⟨fun c hc => ?_, ih h2⟩
      simp only at hc
      rcases List.mem_append.mp hc with hc | hc
      · exact h1 c hc
      · rw [keys_append]
        exact List.mem_append_right _ (by simpa [keys] using hc)
    · rw [if_neg he]
      exact ⟨h1, ih h2⟩

theorem allChildren_mapEntry_appendChild {w : Workspace} {p : String} (nid : String)
    (hnd : (keys w).Nodup) (hp : p ∈ keys w) :
    ∃ pre post, allChildren w = pre ++ post ∧
      allChildren (mapEntry w p (fun q => { q with children := q.children ++ [nid] })) =
        pre ++ nid :: post := by
  induction w with
  | nil => simp [keys] at hp
  | cons e rest ih =>
    rcases List.nodup_cons.mp hnd with ⟨hh, ht⟩
    by_cases he : e.1 = p
    · have hnr : p ∉ keys rest := he ▸ hh
      refine ⟨e.2.children, allChildren rest, rfl, ?_⟩
      rw [mapEntry_cons, if_pos he, allChildren_cons, mapEntry_of_not_mem _ hnr]
      simp [List.append_assoc]
    · have hp' : p ∈ keys rest := by
        rcases List.mem_cons.mp hp with h | h
        · exact absurd h.symm he
        · exact h
      rcases ih ht hp' with ⟨pre, post, hold, hnew⟩
      refine ⟨e.2.children ++ pre, post, ?_, ?_⟩
      · rw [allChildren_cons, hold, List.append_assoc]
      · rw [mapEntry_cons, if_neg he, allChildren_cons, hnew]
        simp [List.append_assoc]

theorem add_page_eq_none (w : Workspace) (pid title : String) :
    (add_page w pid title none).2 = w ++ [(pid, ⟨titleOrUntitled title, "", [], []⟩)] := rfl

theorem add_page_eq_some (w : Workspace) (pid title p : String) :
    (add_page w pid title (some p)).2 =
      if p ≠ "" ∧ p ∈ keys (w ++ [(pid, ⟨titleOrUntitled title, "", [], []⟩)]) then
        mapEntry (w ++ [(pid, ⟨titleOrUntitled title, "", [], []⟩)]) p
          (fun q => { q with children := q.children ++ [pid] })
      else w ++ [(pid, ⟨titleOrUntitled title, "", [], []⟩)] := rfl

theorem wf_append_leaf {w : Workspace} {pid : String} (title : String)
    (hwf : wf w) (hfr : pid ∉ keys w) :
    wf (w ++ [(pid, ⟨titleOrUntitled title, "", [], []⟩)]) := by
  rcases hwf with ⟨hk, hc, ho⟩
  refine ⟨?_, ?_, ordered_append_leaf ho pid _ rfl⟩
  · rw [keys_append]
    simp only [List.nodup_append, keys, List.map_cons, List.map_nil]
    exact ⟨hk, List.nodup_singleton _, by
      intro a ha hae
      simp only [List.mem_singleton] at hae
      exact hfr (hae ▸ ha)⟩
  · rw [allChildren_append]
    simpa [allChildren] using hc

theorem allChildren_append_leaf (w : Workspace) (pid title : String) :
    allChildren (w ++ [(pid, ⟨titleOrUntitled title, "", [], []⟩)]) = allChildren w := by
  rw [allChildren_append]; simp [allChildren]

theorem wf_add_page {w : Workspace} {pid title : String} {parent : Option String}
    (hwf : wf w) (hfr : pid ∉ keys w) (hpar : parent ≠ some pid) :
    wf (add_page w pid title parent).2 := by
  have hwf1 := wf_append_leaf title hwf hfr
  cases parent with
  | none => rw [add_page_eq_none]; exact hwf1
  | some p =>
    rw [add_page_eq_some]
    by_cases hcond : p ≠ "" ∧ p ∈ keys (w ++ [(pid, ⟨titleOrUntitled title, "", [], []⟩)])
    · rw [if_pos hcond]
      rcases hwf1 with ⟨hk1, hc1, ho1⟩
      have hne : p ≠ pid := fun he => hpar (he ▸ rfl)
      have hnew : pid ∉ allChildren (w ++ [(pid, ⟨titleOrUntitled title, "", [], []⟩)]) := by
        rw [allChildren_append_leaf]
        exact fun hmem => hfr (ordered_noDangling hwf.2.2 pid hmem)
      rcases allChildren_mapEntry_appendChild pid hk1 hcond.2 with ⟨pre, post, hold, hnewc⟩
      refine ⟨?_, ?_, ordered_mapEntry_appendLast pid _ p ho1 hne⟩
      · rw [keys_mapEntry]; exact hk1
      · rw [hnewc, List.nodup_middle, List.nodup_cons]
        rw [hold] at hc1 hnew
        exact ⟨hnew, hc1⟩
    · rw [if_neg hcond]; exact hwf1

/-! Reachability along children links, and the forward collection pass. -/

theorem edge_mem_keys {w : Workspace} {y z : String} (h : edge w y z) : y ∈ keys w := by
  rcases h with ⟨p, hl, _⟩
  exact lookupW_mem_keys hl

theorem not_edge_nil {y z : String} : ¬ edge [] y z := by
  rintro ⟨p, hl, _⟩
  simp [lookupW] at hl

theorem edge_cons_lift {e : String × Page} {rest : Workspace} {y z : String}
    (hnd : (keys (e :: rest)).Nodup) (h : edge rest y z) : edge (e :: rest) y z := by
  rcases h with ⟨p, hl, hc⟩
  have hy : y ∈ keys rest := lookupW_mem_keys hl
  have hne : e.1 ≠ y := by
    rcases List.nodup_cons.mp hnd with ⟨hh, _⟩
    exact fun he => hh (show e.1 ∈ keys rest by rw [he]; exact hy)
  exact ⟨p, by simp [lookupW, hne, hl], hc⟩

theorem edge_cons_drop {e : String × Page} {rest : Workspace} {y z : String}
    (h : edge (e :: rest) y z) (hne : e.1 ≠ y) : edge rest y z := by
  rcases h with ⟨p, hl, hc⟩
  exact ⟨p, by simpa [lookupW, hne] using hl, hc⟩

theorem reaches_trans {w : Workspace} {a b c : String}
    (h1 : Reaches w a b) (h2 : Reaches w b c) : Reaches w a c := by
  induction h2 with
  | refl => exact h1
  | tail y z hr he ih => exact Reaches.tail _ _ _ ih he

theorem reaches_cons_lift {e : String × Page} {rest : Workspace} {a z : String}
    (hnd : (keys (e :: rest)).Nodup) (h : Reaches rest a z) : Reaches (e :: rest) a z := by
  induction h with
  | refl => exact Reaches.refl a
  | tail y z hr he ih => exact Reaches.tail _ _ _ ih (edge_cons_lift hnd he)

theorem reaches_head_decomp {w : Workspace} {x z : String} (h : Reaches w x z) :
    z = x ∨ ∃ c, edge w x c ∧ Reaches w c z := by
  induction h with
  | refl => exact Or.inl rfl
  | tail y z hr he ih =>
    rcases ih with rfl | ⟨c, hc, hcy⟩
    · exact Or.inr ⟨z, he, Reaches.refl z⟩
    · exact Or.inr ⟨c, hc, Reaches.tail _ _ _ hcy he⟩

theorem reaches_of_edge {w : Workspace} {x c : String} (h : edge w x c) :
    Reaches w x c := Reaches.tail _ _ _ (Reaches.refl x) h

theorem mem_collectReach_of_mem_acc :
    ∀ (w : Workspace) {acc : List String} {a : String}, a ∈ acc → a ∈ collectReach w acc := by
  intro w
  induction w with
  | nil => intro acc a ha; simpa [collectReach] using ha
  | cons e rest ih =>
    intro acc a ha
    simp only [collectReach]
    by_cases he : e.1 ∈ acc
    · exact ih (by simp [he, List.mem_append_left _ ha])
    · exact ih (by simp [he, ha])

theorem mem_collectReach_cases :
    ∀ (w : Workspace) (acc : List String) (z : String),
      z ∈ collectReach w acc → z ∈ acc ∨ z ∈ allChildren w := by
  intro w
  induction w with
  | nil => intro acc z hz; exact Or.inl (by simpa [collectReach] using hz)
  | cons e rest ih =>
    intro acc z hz
    simp only [collectReach] at hz
    by_cases he : e.1 ∈ acc
    · rw [if_pos he] at hz
      rcases ih _ _ hz with hz | hz
      · rcases List.mem_append.mp hz with hz | hz
        · exact Or.inl hz
        · exact Or.inr (by rw [allChildren_cons]; exact List.mem_append_left _ hz)
      · exact Or.inr (by rw [allChildren_cons]; exact List.mem_append_right _ hz)
    · rw [if_neg he] at hz
      rcases ih _ _ hz with hz | hz
      · exact Or.inl hz
      · exact Or.inr (by rw [allChildren_cons]; exact List.mem_append_right _ hz)

theorem collectReach_closed :
    ∀ (w : Workspace) (acc : List String), ordered w → (keys w).Nodup →
      ∀ y z, y ∈ collectReach w acc → edge w y z → z ∈ collectReach w acc := by
  intro w
  induction w with
  | nil => intro acc _ _ y z _ he; exact absurd he not_edge_nil
  | cons e rest ih =>
    intro acc ho hnd y z hy he
    rcases List.nodup_cons.mp hnd with ⟨hh, ht⟩
    simp only [collectReach] at hy ⊢
    by_cases hey : e.1 = y
    · rcases he with ⟨p, hl, hc⟩
      have hp : p = e.2 := by
        rw [lookupW, if_pos hey] at hl
        exact (Option.some.inj hl).symm
      have hyacc : y ∈ (if e.1 ∈ acc then acc ++ e.2.children else acc) := by
        rcases mem_collectReach_cases rest _ y hy with h | h
        · exact h
        · exact absurd (show e.1 ∈ keys rest by
            rw [hey]; exact ordered_noDangling ho.2 y h) hh
      have heacc : e.1 ∈ acc := by
        by_cases hea : e.1 ∈ acc
        · exact hea
        · rw [if_neg hea] at hyacc
          exact absurd (hey ▸ hyacc) hea
      rw [if_pos heacc] at hy ⊢
      exact mem_collectReach_of_mem_acc rest
        (List.mem_append_right _ (by rw [← hp]; exact hc))
    · exact ih _ ho.2 ht y z hy (edge_cons_drop he hey)

theorem reaches_mem_collectReach {w : Workspace} (ho : ordered w)
    (hnd : (keys w).Nodup) {acc : List String} {a z : String}
    (ha : a ∈ acc) (h : Reaches w a z) : z ∈ collectReach w acc := by
  induction h with
  | refl => exact mem_collectReach_of_mem_acc w ha
  | tail y z hr he ih => exact collectReach_closed w acc ho hnd y z ih he

theorem collectReach_reaches :
    ∀ (w : Workspace) (acc : List String), (keys w).Nodup →
      ∀ z ∈ collectReach w acc, ∃ a ∈ acc, Reaches w a z := by
  intro w
  induction w with
  | nil => intro acc _ z hz; exact ⟨z, by simpa [collectReach] using hz, Reaches.refl z⟩
  | cons e rest ih =>
    intro acc hnd z hz
    rcases List.nodup_cons.mp hnd with ⟨hh, ht⟩
    simp only [collectReach] at hz
    by_cases he : e.1 ∈ acc
    · rw [if_pos he] at hz
      rcases ih _ ht z hz with ⟨a, ha, hr⟩
      have hr' : Reaches (e :: rest) a z := reaches_cons_lift hnd hr
      rcases List.mem_append.mp ha with ha | ha
      · exact ⟨a, ha, hr'⟩
      · have hea : edge (e :: rest) e.1 a := ⟨e.2, by simp [lookupW], ha⟩
        exact ⟨e.1, he, reaches_trans (reaches_of_edge hea) hr'⟩
    · rw [if_neg he] at hz
      rcases ih _ ht z hz with ⟨a, ha, hr⟩
      exact ⟨a, ha, reaches_cons_lift hnd hr⟩

theorem mem_desc_iff_reaches {w : Workspace} {x z : String}
    (ho : ordered w) (hnd : (keys w).Nodup) :
    z ∈ desc w x ↔ Reaches w x z := by
  constructor
  · intro h
    rcases collectReach_reaches w [x] hnd z h with ⟨a, ha, hr⟩
    rcases List.mem_singleton.mp ha with rfl
    exact hr
  · intro h
    exact reaches_mem_collectReach ho hnd (List.mem_singleton.mpr rfl) h

/-! Position arguments: children sit strictly later in iteration order. -/

theorem edge_mem_keys_tailAfter {w : Workspace} {y z : String}
    (ho : ordered w) (hnd : (keys w).Nodup) (h : edge w y z) :
    z ∈ keys (tailAfter w y) := by
  induction w with
  | nil => exact absurd h not_edge_nil
  | cons e rest ih =>
    rcases List.nodup_cons.mp hnd with ⟨hh, ht⟩
    by_cases hey : e.1 = y
    · rcases h with ⟨p, hl, hc⟩
      have hp : p = e.2 := by
        rw [lookupW, if_pos hey] at hl
        exact (Option.some.inj hl).symm
      simp only [tailAfter]
      rw [if_pos hey]
      exact ho.1 z (by rw [← hp]; exact hc)
    · simp only [tailAfter]
      rw [if_neg hey]
      exact ih ho.2 ht (edge_cons_drop h hey)

theorem keys_tailAfter_subset (w : Workspace) (x : String) :
    ∀ z ∈ keys (tailAfter w x), z ∈ keys w :=
  fun _ hz => (keys_tailAfter_sublist w x).subset hz

theorem tailAfter_lt_of_mem_tail {w : Workspace} {y z : String}
    (hnd : (keys w).Nodup) (hz : z ∈ keys (tailAfter w y)) :
    (tailAfter w z).length < (tailAfter w y).length := by
  induction w with
  | nil => simp [tailAfter, keys] at hz
  | cons e rest ih =>
    rcases List.nodup_cons.mp hnd with ⟨hh, ht⟩
    simp only [tailAfter] at hz ⊢
    by_cases hey : e.1 = y
    · rw [if_pos hey] at hz ⊢
      have hez : e.1 ≠ z := fun he => hh (show e.1 ∈ keys rest by rw [he]; exact hz)
      rw [if_neg hez]
      exact tailAfter_length_lt hz
    · rw [if_neg hey] at hz ⊢
      have hez : e.1 ≠ z :=
        fun he => hh (show e.1 ∈ keys rest by
          rw [he]; exact keys_tailAfter_subset rest y z hz)
      rw [if_neg hez]
      exact ih ht hz

theorem edge_tailAfter_lt {w : Workspace} {y z : String}
    (ho : ordered w) (hnd : (keys w).Nodup) (h : edge w y z) :
    (tailAfter w z).length < (tailAfter w y).length :=
  tailAfter_lt_of_mem_tail hnd (edge_mem_keys_tailAfter ho hnd h)

theorem reaches_tailAfter_le {w : Workspace} {y z : String}
    (ho : ordered w) (hnd : (keys w).Nodup) (h : Reaches w y z) :
    z = y ∨ (tailAfter w z).length < (tailAfter w y).length := by
  induction h with
  | refl => exact Or.inl rfl
  | tail y1 z1 hr he ih =>
    have hlt := edge_tailAfter_lt ho hnd he
    rcases ih with rfl | ih
    · exact Or.inr hlt
    · exact Or.inr (hlt.trans ih)

theorem no_cycle {w : Workspace} {x c : String}
    (ho : ordered w) (hnd : (keys w).Nodup) (he : edge w x c) (hr : Reaches w c x) :
    False := by
  have h1 := edge_tailAfter_lt ho hnd he
  rcases reaches_tailAfter_le ho hnd hr with rfl | h2
  · omega
  · omega

/-! Each id has at most one parent when no id is referenced twice. -/

theorem unique_parent {w : Workspace} (hnd : (keys w).Nodup)
    (hca : (allChildren w).Nodup) {y1 y2 z : String} {p1 p2 : Page}
    (hl1 : lookupW w y1 = some p1) (hl2 : lookupW w y2 = some p2)
    (hc1 : z ∈ p1.children) (hc2 : z ∈ p2.children) : y1 = y2 := by
  induction w with
  | nil => simp [lookupW] at hl1
  | cons e rest ih =>
    rcases List.nodup_cons.mp hnd with ⟨hh, ht⟩
    rw [allChildren_cons] at hca
    have hdisj := List.disjoint_of_nodup_append hca
    by_cases h1 : e.1 = y1 <;> by_cases h2 : e.1 = y2
    · exact h1 ▸ h2 ▸ rfl
    · exfalso
      rw [lookupW, if_pos h1] at hl1
      have hp1 : p1 = e.2 := (Option.some.inj hl1).symm
      rw [lookupW, if_neg h2] at hl2
      have hmem : z ∈ allChildren rest :=
        mem_allChildren.mpr ⟨(y2, p2), lookupW_mem hl2, hc2⟩
      exact hdisj (by rw [← hp1]; exact hc1) hmem
    · exfalso
      rw [lookupW, if_pos h2] at hl2
      have hp2 : p2 = e.2 := (Option.some.inj hl2).symm
      rw [lookupW, if_neg h1] at hl1
      have hmem : z ∈ allChildren rest :=
        mem_allChildren.mpr ⟨(y1, p1), lookupW_mem hl1, hc1⟩
      exact hdisj (by rw [← hp2]; exact hc2) hmem
    · rw [lookupW, if_neg h1] at hl1
      rw [lookupW, if_neg h2] at hl2
      exact ih ht (hca.sublist (List.sublist_append_right _ _)) hl1 hl2

theorem reaches_last_decomp {w : Workspace} {b z : String} (h : Reaches w b z) :
    z = b ∨ ∃ y, Reaches w b y ∧ edge w y z := by
  induction h with
  | refl => exact Or.inl rfl
  | tail y z1 hr he ih => exact Or.inr ⟨y, hr, he⟩

theorem reaches_comparable {w : Workspace} (hnd : (keys w).Nodup)
    (hca : (allChildren w).Nodup) {a b : String} :
    ∀ z, Reaches w a z → Reaches w b z → Reaches w a b ∨ Reaches w b a := by
  intro z h1
  induction h1 with
  | refl => exact fun h2 => Or.inr h2
  | tail y z1 hay he ih =>
    intro h2
    rcases reaches_last_decomp h2 with rfl | ⟨y2, hby2, he2⟩
    · exact Or.inl (Reaches.tail _ _ _ hay he)
    · rcases he with ⟨p, hl, hc⟩
      rcases he2 with ⟨p2, hl2, hc2⟩
      have hyy : y = y2 := unique_parent hnd hca hl hl2 hc hc2
      exact ih (hyy ▸ hby2)

/-! Algebra of the specification-side deletion `removeIds`. -/

theorem removeIds_cons_mem {k : String} {pg : Page} {rest : Workspace} {s : List String}
    (h : k ∈ s) : removeIds ((k, pg) :: rest) s = removeIds rest s := by
  simp [removeIds, List.filter_cons, h]

theorem removeIds_cons_not_mem {k : String} {pg : Page} {rest : Workspace} {s : List String}
    (h : k ∉ s) :
    removeIds ((k, pg) :: rest) s =
      (k, { pg with children := pg.children.filter (fun c => decide (c ∉ s)) }) ::
        removeIds rest s := by
  simp [removeIds, List.filter_cons, h]

theorem removeIds_nil_set (w : Workspace) : removeIds w [] = w := by
  induction w with
  | nil => rfl
  | cons e rest ih =>
    rw [removeIds_cons_not_mem (by simp)]
    simp [ih]

theorem keys_removeIds (w : Workspace) (s : List String) :
    keys (removeIds w s) = (keys w).filter (fun k => decide (k ∉ s)) := by
  induction w with
  | nil => rfl
  | cons e rest ih =>
    by_cases h : e.1 ∈ s
    · rw [removeIds_cons_mem h, keys_cons, List.filter_cons, if_neg (by simp [h]), ih]
    · rw [removeIds_cons_not_mem h, keys_cons, keys_cons, List.filter_cons,
        if_pos (by simp [h]), ih]

theorem mem_keys_removeIds {w : Workspace} {s : List String} {k : String} :
    k ∈ keys (removeIds w s) ↔ k ∈ keys w ∧ k ∉ s := by
  rw [keys_removeIds]
  simp

theorem length_removeIds_le (w : Workspace) (s : List String) :
    (removeIds w s).length ≤ w.length := by
  rw [removeIds, List.length_map]
  exact List.length_filter_le _ _

theorem removeIds_removeIds (w : Workspace) (s t : List String) :
    removeIds (removeIds w s) t = removeIds w (s ++ t) := by
  induction w with
  | nil => rfl
  | cons e rest ih =>
    obtain ⟨k, pg⟩ := e
    by_cases hs : k ∈ s
    · rw [removeIds_cons_mem hs, removeIds_cons_mem (List.mem_append_left _ hs), ih]
    · by_cases htm : k ∈ t
      · rw [removeIds_cons_not_mem hs, removeIds_cons_mem htm,
          removeIds_cons_mem (List.mem_append_right _ htm), ih]
      · have hst : k ∉ s ++ t := by simp [hs, htm]
        have hch : (pg.children.filter (fun c => decide (c ∉ s))).filter
              (fun c => decide (c ∉ t)) =
            pg.children.filter (fun c => decide (c ∉ s ++ t)) := by
          rw [List.filter_filter]
          apply List.filter_congr
          intro c _
          by_cases h1 : c ∈ s <;> by_cases h2 : c ∈ t <;> simp [h1, h2]
        rw [removeIds_cons_not_mem hs, removeIds_cons_not_mem htm,
          removeIds_cons_not_mem hst, ih, hch]

theorem removeIds_congr {w : Workspace} {s t : List String}
    (h : ∀ a, a ∈ s ↔ a ∈ t) : removeIds w s = removeIds w t := by
  induction w with
  | nil => rfl
  | cons e rest ih =>
    obtain ⟨k, pg⟩ := e
    by_cases hs : k ∈ s
    · rw [removeIds_cons_mem hs, removeIds_cons_mem ((h k).mp hs), ih]
    · have hch : pg.children.filter (fun c => decide (c ∉ s)) =
          pg.children.filter (fun c => decide (c ∉ t)) := by
        apply List.filter_congr
        intro c _
        simp only [decide_eq_decide]
        exact not_congr (h c)
      rw [removeIds_cons_not_mem hs,
        removeIds_cons_not_mem (fun ht => hs ((h k).mpr ht)), ih, hch]

theorem allChildren_removeIds_sublist (w : Workspace) (s : List String) :
    List.Sublist (allChildren (removeIds w s)) (allChildren w) := by
  induction w with
  | nil => simp [removeIds, allChildren]
  | cons e rest ih =>
    by_cases h : e.1 ∈ s
    · rw [removeIds_cons_mem h, allChildren_cons]
      exact ih.trans (List.sublist_append_right _ _)
    · rw [removeIds_cons_not_mem h, allChildren_cons, allChildren_cons]
      exact List.Sublist.append (List.filter_sublist _) ih

theorem wf_removeIds {w : Workspace} (s : List String) (hwf : wf w) :
    wf (removeIds w s) := by
  rcases hwf with ⟨hk, hc, ho⟩
  refine ⟨?_, ?_, ?_⟩
  · rw [keys_removeIds]
    exact hk.filter _
  · exact hc.sublist (allChildren_removeIds_sublist w s)
  · clear hk hc
    induction w with
    | nil => exact trivial
    | cons e rest ih =>
      by_cases h : e.1 ∈ s
      · rw [removeIds_cons_mem h]
        exact ih ho.2
      · rw [removeIds_cons_not_mem h, ordered_cons_iff]
        refine ⟨fun c hcm => ?_, ih ho.2⟩
        simp only [List.mem_filter, decide_eq_true_eq] at hcm
        exact mem_keys_removeIds.mpr ⟨ho.1 c hcm.1, hcm.2⟩

theorem lookupW_removeIds_of_not_mem {w : Workspace} {s : List String} {y : String}
    (hy : y ∉ s) :
    lookupW (removeIds w s) y =
      (lookupW w y).map
        (fun p => { p with children := p.children.filter (fun c => decide (c ∉ s)) }) := by
  induction w with
  | nil => rfl
  | cons e rest ih =>
    by_cases hm : e.1 ∈ s
    · have hne : e.1 ≠ y := fun he => hy (he ▸ hm)
      rw [removeIds_cons_mem hm, lookupW, if_neg hne, ih]
    · rw [removeIds_cons_not_mem hm]
      by_cases hey : e.1 = y
      · rw [lookupW, if_pos hey, lookupW, if_pos hey]
        rfl
      · rw [lookupW, if_neg hey, lookupW, if_neg hey, ih]

theorem lookupW_removeIds_of_mem {w : Workspace} {s : List String} {y : String}
    (hy : y ∈ s) : lookupW (removeIds w s) y = none := by
  rw [lookupW_eq_none, mem_keys_removeIds]
  exact fun h => h.2 hy

theorem edge_removeIds_imp {w : Workspace} {s : List String} {y z : String}
    (h : edge (removeIds w s) y z) : edge w y z ∧ y ∉ s ∧ z ∉ s := by
  rcases h with ⟨q, hl, hc⟩
  by_cases hy : y ∈ s
  · rw [lookupW_removeIds_of_mem hy] at hl
    exact absurd hl (by simp)
  · rw [lookupW_removeIds_of_not_mem hy] at hl
    cases hp : lookupW w y with
    | none => rw [hp] at hl; exact absurd hl (by simp)
    | some p =>
      rw [hp] at hl
      have hq : q = { p with children := p.children.filter (fun c => decide (c ∉ s)) } :=
        (Option.some.inj hl).symm
      rw [hq] at hc
      simp only [List.mem_filter, decide_eq_true_eq] at hc
      exact ⟨⟨p, hp, hc.1⟩, hy, hc.2⟩

theorem edge_removeIds_of_edge {w : Workspace} {s : List String} {y z : String}
    (h : edge w y z) (hy : y ∉ s) (hz : z ∉ s) : edge (removeIds w s) y z := by
  rcases h with ⟨p, hp, hc⟩
  refine ⟨{ p with children := p.children.filter (fun c => decide (c ∉ s)) }, ?_, ?_⟩
  · rw [lookupW_removeIds_of_not_mem hy, hp]
    rfl
  · simp only [List.mem_filter, decide_eq_true_eq]
    exact ⟨hc, hz⟩

theorem reaches_removeIds_iff {w : Workspace} {s : List String} {x z : String}
    (hsub : ∀ u, Reaches w x u → u ∉ s) :
    Reaches (removeIds w s) x z ↔ Reaches w x z := by
  constructor
  · intro h
    induction h with
    | refl => exact Reaches.refl x
    | tail y z1 hr he ih => exact Reaches.tail _ _ _ ih (edge_removeIds_imp he).1
  · intro h
    induction h with
    | refl => exact Reaches.refl x
    | tail y z1 hr he ih =>
      exact Reaches.tail _ _ _ ih
        (edge_removeIds_of_edge he (hsub y hr) (hsub z1 (Reaches.tail _ _ _ hr he)))

theorem tailAfter_length_le (w : Workspace) (x : String) :
    (tailAfter w x).length ≤ w.length := by
  induction w with
  | nil => simp [tailAfter]
  | cons e rest ih =>
    simp only [tailAfter, List.length_cons]
    by_cases he : e.1 = x
    · rw [if_pos he]; omega
    · rw [if_neg he]; omega

theorem tailAfter_removeIds_le (w : Workspace) (s : List String) (c : String) :
    (tailAfter (removeIds w s) c).length ≤ (tailAfter w c).length := by
  induction w with
  | nil => simp [removeIds, tailAfter]
  | cons e rest ih =>
    by_cases hm : e.1 ∈ s
    · rw [removeIds_cons_mem hm]
      by_cases hec : e.1 = c
      · simp only [tailAfter, if_pos hec]
        exact (tailAfter_length_le _ _).trans (length_removeIds_le rest s)
      · simp only [tailAfter, if_neg hec]
        exact ih
    · rw [removeIds_cons_not_mem hm]
      by_cases hec : e.1 = c
      · simp only [tailAfter, if_pos hec]
        exact length_removeIds_le rest s
      · simp only [tailAfter, if_neg hec]
        exact ih

/-! Facts about the collected descendant sets. -/

theorem mem_desc_self (w : Workspace) (x : String) : x ∈ desc w x :=
  mem_collectReach_of_mem_acc w (List.mem_singleton.mpr rfl)

theorem children_nodup {w : Workspace} (hca : (allChildren w).Nodup)
    {y : String} {p : Page} (hl : lookupW w y = some p) : p.children.Nodup := by
  have hmem : p.children ∈ w.map (fun e => e.2.children) :=
    List.mem_map.mpr ⟨(y, p), lookupW_mem hl, rfl⟩
  exact hca.sublist (List.sublist_flatten_of_mem hmem)

theorem not_self_in_child_desc {w : Workspace} (hwf : wf w) {x c : String} {p : Page}
    (hl : lookupW w x = some p) (hc : c ∈ p.children) : x ∉ desc w c := by
  intro hx
  have hr : Reaches w c x := (mem_desc_iff_reaches hwf.2.2 hwf.1).mp hx
  exact no_cycle hwf.2.2 hwf.1 ⟨p, hl, hc⟩ hr

theorem desc_disjoint_siblings {w : Workspace} (hwf : wf w) {x : String} {p : Page}
    (hl : lookupW w x = some p) {c1 c2 : String} (h1 : c1 ∈ p.children)
    (h2 : c2 ∈ p.children) (hne : c1 ≠ c2) :
    ∀ z, z ∈ desc w c1 → z ∈ desc w c2 → False := by
  intro z hz1 hz2
  have hr1 : Reaches w c1 z := (mem_desc_iff_reaches hwf.2.2 hwf.1).mp hz1
  have hr2 : Reaches w c2 z := (mem_desc_iff_reaches hwf.2.2 hwf.1).mp hz2
  have hcomp := reaches_comparable hwf.1 hwf.2.1 z hr1 hr2
  rcases hcomp with h | h
  · rcases reaches_last_decomp h with he | ⟨y, hcy, hyc⟩
    · exact hne he.symm
    · rcases hyc with ⟨p2, hl2, hc2m⟩
      have hyx : y = x := unique_parent hwf.1 hwf.2.1 hl2 hl hc2m h2
      exact no_cycle hwf.2.2 hwf.1 ⟨p, hl, h1⟩ (hyx ▸ hcy)
  · rcases reaches_last_decomp h with he | ⟨y, hcy, hyc⟩
    · exact hne he
    · rcases hyc with ⟨p2, hl2, hc2m⟩
      have hyx : y = x := unique_parent hwf.1 hwf.2.1 hl2 hl hc2m h1
      exact no_cycle hwf.2.2 hwf.1 ⟨p, hl, h2⟩ (hyx ▸ hcy)

theorem desc_pairwise_disjoint {w : Workspace} (hwf : wf w) {x : String} {p : Page}
    (hl : lookupW w x = some p) :
    List.Pairwise (fun a b => ∀ z, z ∈ desc w a → z ∈ desc w b → False) p.children := by
  have hnd : p.children.Nodup := children_nodup hwf.2.1 hl
  exact hnd.imp_of_mem (fun ha hb hne => desc_disjoint_siblings hwf hl ha hb hne)

theorem desc_unfold_mem {w : Workspace} (hwf : wf w) {x : String} {p : Page}
    (hl : lookupW w x = some p) (z : String) :
    z ∈ desc w x ↔ z = x ∨ z ∈ p.children.flatMap (fun c => desc w c) := by
  rw [mem_desc_iff_reaches hwf.2.2 hwf.1]
  constructor
  · intro h
    rcases reaches_head_decomp h with rfl | ⟨c, hc, hr⟩
    · exact Or.inl rfl
    · rcases hc with ⟨p2, hl2, hcm⟩
      have hp2 : p2 = p := by rw [hl2] at hl; exact Option.some.inj hl
      refine Or.inr (List.mem_flatMap.mpr ⟨c, hp2 ▸ hcm, ?_⟩)
      exact (mem_desc_iff_reaches hwf.2.2 hwf.1).mpr hr
  · intro h
    rcases h with rfl | h
    · exact Reaches.refl z
    · rcases List.mem_flatMap.mp h with ⟨c, hcm, hz⟩
      have hr : Reaches w c z := (mem_desc_iff_reaches hwf.2.2 hwf.1).mp hz
      exact reaches_trans (reaches_of_edge ⟨p, hl, hcm⟩) hr

/-! The recursive deletion computes `removeIds` of the descendant set. -/

theorem delete_page_fuel_not_mem :
    ∀ (fuel : Nat) {w : Workspace} {x : String}, x ∉ keys w →
      delete_page_fuel fuel w x = (w, 0)
  | 0, _, _, _ => rfl
  | Nat.succ n, w, x, h => by simp [delete_page_fuel, h]

theorem foldl_del_fst (n : Nat) :
    ∀ (cs : List String) (w : Workspace) (k : Nat),
      (cs.foldl (fun acc c =>
          let s := delete_page_fuel n acc.1 c
          (s.1, acc.2 + s.2)) (w, k)).1 =
        cs.foldl (fun a c => (delete_page_fuel n a c).1) w
  | [], _, _ => rfl
  | c :: cs, w, k => by
    simp only [List.foldl_cons]
    exact foldl_del_fst n cs _ _

theorem delete_page_fuel_succ_fst {w : Workspace} {x : String} (n : Nat) (h : x ∈ keys w) :
    (delete_page_fuel (Nat.succ n) w x).1 =
      eraseKey (scrubChildren ((childrenOf w x).foldl
        (fun a c => (delete_page_fuel n a c).1) w) x) x := by
  simp only [delete_page_fuel, if_pos h]
  rw [foldl_del_fst]

theorem entries_children_nodup {w : Workspace} (hca : (allChildren w).Nodup) :
    ∀ e ∈ w, e.2.children.Nodup := fun e he =>
  hca.sublist (List.sublist_flatten_of_mem (List.mem_map.mpr ⟨e, he, rfl⟩))

theorem scrubChildren_cons (k : String) (pg : Page) (rest : Workspace) (x : String) :
    scrubChildren ((k, pg) :: rest) x =
      (k, { pg with children := eraseFirst pg.children x }) :: scrubChildren rest x := by
  simp [scrubChildren]

theorem eraseKey_cons (k : String) (pg : Page) (rest : Workspace) (x : String) :
    eraseKey ((k, pg) :: rest) x =
      if k = x then eraseKey rest x else (k, pg) :: eraseKey rest x := rfl

theorem scrub_erase_removeIds {x : String} {dd : List String} :
    ∀ {w : Workspace}, (∀ e ∈ w, e.2.children.Nodup) →
      eraseKey (scrubChildren (removeIds w dd) x) x = removeIds w (x :: dd) := by
  intro w
  induction w with
  | nil => intro _; rfl
  | cons e rest ih =>
    intro hch
    obtain ⟨k, pg⟩ := e
    have hchk : pg.children.Nodup := hch (k, pg) (List.mem_cons_self _ _)
    have hcht : ∀ e ∈ rest, e.2.children.Nodup := fun e he => hch e (List.mem_cons_of_mem _ he)
    by_cases hd : k ∈ dd
    · rw [removeIds_cons_mem hd, removeIds_cons_mem (List.mem_cons_of_mem _ hd)]
      exact ih hcht
    · rw [removeIds_cons_not_mem hd, scrubChildren_cons, eraseKey_cons]
      by_cases hx : k = x
      · rw [if_pos hx, removeIds_cons_mem (by rw [hx]; exact List.mem_cons_self _ _)]
        exact ih hcht
      · have hkxd : k ∉ x :: dd := by
          intro hk
          rcases List.mem_cons.mp hk with hk | hk
          · exact hx hk
          · exact hd hk
        rw [if_neg hx, removeIds_cons_not_mem hkxd]
        have hech : eraseFirst (pg.children.filter (fun c => decide (c ∉ dd))) x =
            pg.children.filter (fun c => decide (c ∉ x :: dd)) := by
          rw [eraseFirst_eq_filter x (hchk.filter _), List.filter_filter]
          apply List.filter_congr
          intro c _
          by_cases h1 : c = x <;> by_cases h2 : c ∈ dd <;> simp [h1, h2]
        rw [hech, ih hcht]

theorem delete_fold_spec {n : Nat}
    (IH : ∀ w x, wf w → x ∈ keys w → (tailAfter w x).length < n →
      (delete_page_fuel n w x).1 = removeIds w (desc w x)) :
    ∀ (cs : List String) (w : Workspace), wf w →
      (∀ c ∈ cs, c ∈ keys w ∧ (tailAfter w c).length < n) →
      List.Pairwise (fun a b => ∀ z, z ∈ desc w a → z ∈ desc w b → False) cs →
      cs.foldl (fun a c => (delete_page_fuel n a c).1) w =
        removeIds w (cs.flatMap (fun c => desc w c)) := by
  intro cs
  induction cs with
  | nil => intro w _ _ _; simp [removeIds_nil_set]
  | cons c cs ih =>
    intro w hwf hmem hpw
    have hc := hmem c (List.mem_cons_self _ _)
    have h1 : (delete_page_fuel n w c).1 = removeIds w (desc w c) := IH w c hwf hc.1 hc.2
    simp only [List.foldl_cons, h1]
    have hpwc : ∀ b ∈ cs, ∀ z, z ∈ desc w c → z ∈ desc w b → False :=
      (List.pairwise_cons.mp hpw).1
    have hpwt := (List.pairwise_cons.mp hpw).2
    have hwf' : wf (removeIds w (desc w c)) := wf_removeIds _ hwf
    have hstab : ∀ b ∈ cs, ∀ z, z ∈ desc (removeIds w (desc w c)) b ↔ z ∈ desc w b := by
      intro b hb z
      have hsub : ∀ u, Reaches w b u → u ∉ desc w c := fun u hu hmem2 =>
        hpwc b hb u hmem2 ((mem_desc_iff_reaches hwf.2.2 hwf.1).mpr hu)
      rw [mem_desc_iff_reaches hwf'.2.2 hwf'.1, mem_desc_iff_reaches hwf.2.2 hwf.1]
      exact reaches_removeIds_iff hsub
    have hmem' : ∀ b ∈ cs, b ∈ keys (removeIds w (desc w c)) ∧
        (tailAfter (removeIds w (desc w c)) b).length < n := by
      intro b hb
      have hbk := (hmem b (List.mem_cons_of_mem _ hb)).1
      have hbn : b ∉ desc w c := fun hmem2 => hpwc b hb b hmem2 (mem_desc_self w b)
      refine ⟨mem_keys_removeIds.mpr ⟨hbk, hbn⟩, ?_⟩
      exact lt_of_le_of_lt (tailAfter_removeIds_le w _ b)
        (hmem b (List.mem_cons_of_mem _ hb)).2
    have hpw2 : List.Pairwise
        (fun a b => ∀ z, z ∈ desc (removeIds w (desc w c)) a →
          z ∈ desc (removeIds w (desc w c)) b → False) cs :=
      List.Pairwise.imp_of_mem
        (fun ha hb hr z hz1 hz2 =>
          hr z ((hstab _ ha _).mp hz1) ((hstab _ hb _).mp hz2)) hpwt
    rw [ih (removeIds w (desc w c)) hwf' hmem' hpw2, removeIds_removeIds]
    apply removeIds_congr
    intro a
    simp only [List.mem_append, List.flatMap_cons, List.mem_flatMap]
    constructor
    · rintro (ha | ⟨b, hb, hab⟩)
      · exact Or.inl ha
      · exact Or.inr ⟨b, hb, (hstab b hb a).mp hab⟩
    · rintro (ha | ⟨b, hb, hab⟩)
      · exact Or.inl ha
      · exact Or.inr ⟨b, hb, (hstab b hb a).mpr hab⟩

theorem delete_fuel_spec :
    ∀ (fuel : Nat) (w : Workspace) (x : String), wf w → x ∈ keys w →
      (tailAfter w x).length < fuel →
      (delete_page_fuel fuel w x).1 = removeIds w (desc w x) := by
  intro fuel
  induction fuel with
  | zero => intro w x _ _ h; omega
  | succ n IH =>
    intro w x hwf hx htl
    rcases lookupW_isSome hx with ⟨p, hp⟩
    have hcs : childrenOf w x = p.children := by simp [childrenOf, hp]
    rw [delete_page_fuel_succ_fst n hx, hcs]
    have hmem : ∀ c ∈ p.children, c ∈ keys w ∧ (tailAfter w c).length < n := by
      intro c hc
      have h1 : c ∈ keys (tailAfter w x) :=
        edge_mem_keys_tailAfter hwf.2.2 hwf.1 ⟨p, hp, hc⟩
      have h2 := tailAfter_lt_of_mem_tail hwf.1 h1
      exact ⟨keys_tailAfter_subset w x c h1, by omega⟩
    rw [delete_fold_spec IH p.children w hwf hmem (desc_pairwise_disjoint hwf hp),
      scrub_erase_removeIds (entries_children_nodup hwf.2.1)]
    apply removeIds_congr
    intro a
    rw [desc_unfold_mem hwf hp a]
    simp

theorem delete_page_spec {w : Workspace} {x : String} (hwf : wf w) (hx : x ∈ keys w) :
    (delete_page w x).1 = removeIds w (desc w x) :=
  delete_fuel_spec w.length w x hwf hx (tailAfter_length_lt hx)

theorem delete_page_not_mem {w : Workspace} {x : String} (hx : x ∉ keys w) :
    delete_page w x = (w, 0) :=
  delete_page_fuel_not_mem w.length hx

theorem wf_delete_page {w : Workspace} (x : String) (hwf : wf w) :
    wf (delete_page w x).1 := by
  by_cases hx : x ∈ keys w
  · rw [delete_page_spec hwf hx]
    exact wf_removeIds _ hwf
  · rw [delete_page_not_mem hx]
    exact hwf

/-! Building the sidebar forest succeeds on acyclic dangling-free
workspaces and reflects reachability exactly. -/

theorem reaches_mem_keys {w : Workspace} {x z : String} (hdg : noDangling w)
    (hx : x ∈ keys w) (h : Reaches w x z) : z ∈ keys w := by
  induction h with
  | refl => exact hx
  | tail y z1 hr he ih =>
    rcases he with ⟨p, hl, hc⟩
    exact hdg z1 (mem_allChildren.mpr ⟨(y, p), lookupW_mem hl, hc⟩)

theorem append_singleton_nodup {anc : List String} {pid : String}
    (hancnd : anc.Nodup) (hnotin : pid ∉ anc) : (anc ++ [pid]).Nodup := by
  rw [List.nodup_append]
  refine ⟨hancnd, List.nodup_singleton _, ?_⟩
  intro a ha hb
  rcases List.mem_singleton.mp hb with rfl
  exact hnotin ha

theorem seqNodes_spec {w : Workspace} {n : Nat} {rank : String → Nat}
    (IH : ∀ (pid : String) (anc : List String),
      pid ∈ keys w → anc.Nodup → (∀ a ∈ anc, a ∈ keys w) →
      (∀ a ∈ anc, rank pid < rank a) → pid ∉ anc → w.length ≤ n + anc.length →
      ∃ nd, buildNode n w pid = some nd ∧ nd.nid = pid ∧
        (∀ z, z ∈ nodeIds nd ↔ Reaches w pid z))
    (anc : List String) :
    ∀ cs : List String,
      (∀ c ∈ cs, c ∈ keys w ∧ (∀ a ∈ anc, rank c < rank a) ∧ c ∉ anc) →
      anc.Nodup → (∀ a ∈ anc, a ∈ keys w) → w.length ≤ n + anc.length →
      ∃ ns, seqNodes (fun c => buildNode n w c) cs = some ns ∧
        ns.map Node.nid = cs ∧
        (∀ z, z ∈ nodeIdsList ns ↔ ∃ c ∈ cs, Reaches w c z) := by
  intro cs
  induction cs with
  | nil =>
    intro _ _ _ _
    exact ⟨[], rfl, rfl, by simp [nodeIdsList]⟩
  | cons c cs ih =>
    intro hcs hancnd hanck hlen
    have hc := hcs c (List.mem_cons_self _ _)
    rcases IH c anc hc.1 hancnd hanck hc.2.1 hc.2.2 hlen with ⟨nd, hnd, hid, hiff⟩
    rcases ih (fun b hb => hcs b (List.mem_cons_of_mem _ hb)) hancnd hanck hlen with
      ⟨ns, hns, hmap, hiffs⟩
    refine ⟨nd :: ns, ?_, ?_, ?_⟩
    · simp [seqNodes, hnd, hns]
    · simp [hmap, hid]
    · intro z
      simp only [nodeIdsList, List.mem_append, List.mem_cons]
      constructor
      · rintro (hz | hz)
        · exact ⟨c, Or.inl rfl, (hiff z).mp hz⟩
        · rcases (hiffs z).mp hz with ⟨b, hb, hrb⟩
          exact ⟨b, Or.inr hb, hrb⟩
      · rintro ⟨b, hb | hb, hrb⟩
        · exact Or.inl ((hiff z).mpr (hb ▸ hrb))
        · exact Or.inr ((hiffs z).mpr ⟨b, hb, hrb⟩)

theorem buildNode_spec {w : Workspace} {rank : String → Nat}
    (_hnd : (keys w).Nodup) (hdg : noDangling w)
    (hr : ∀ e ∈ w, ∀ c ∈ e.2.children, rank c < rank e.1) :
    ∀ (fuel : Nat) (pid : String) (anc : List String),
      pid ∈ keys w → anc.Nodup → (∀ a ∈ anc, a ∈ keys w) →
      (∀ a ∈ anc, rank pid < rank a) → pid ∉ anc →
      w.length ≤ fuel + anc.length →
      ∃ nd, buildNode fuel w pid = some nd ∧ nd.nid = pid ∧
        (∀ z, z ∈ nodeIds nd ↔ Reaches w pid z) := by
  intro fuel
  induction fuel with
  | zero =>
    intro pid anc hpid hancnd hanck hrk hnotin hlen
    exfalso
    have hnd2 : (anc ++ [pid]).Nodup := append_singleton_nodup hancnd hnotin
    have hsub : (anc ++ [pid]) ⊆ keys w := by
      intro a ha
      rcases List.mem_append.mp ha with ha | ha
      · exact hanck a ha
      · rcases List.mem_singleton.mp ha with rfl
        exact hpid
    have hle := (hnd2.subperm hsub).length_le
    have hkw : (keys w).length = w.length := List.length_map _ _
    simp only [List.length_append, List.length_singleton] at hle
    omega
  | succ n IH =>
    intro pid anc hpid hancnd hanck hrk hnotin hlen
    rcases lookupW_isSome hpid with ⟨p, hp⟩
    have hentry : (pid, p) ∈ w := lookupW_mem hp
    have hanc'nd : (anc ++ [pid]).Nodup := append_singleton_nodup hancnd hnotin
    have hanc'k : ∀ a ∈ anc ++ [pid], a ∈ keys w := by
      intro a ha
      rcases List.mem_append.mp ha with ha | ha
      · exact hanck a ha
      · rcases List.mem_singleton.mp ha with rfl
        exact hpid
    have hconds : ∀ c ∈ p.children,
        c ∈ keys w ∧ (∀ a ∈ anc ++ [pid], rank c < rank a) ∧ c ∉ anc ++ [pid] := by
      intro c hcm
      have hck : c ∈ keys w :=
        hdg c (mem_allChildren.mpr ⟨(pid, p), hentry, hcm⟩)
      have hcr : rank c < rank pid := hr (pid, p) hentry c hcm
      have hra : ∀ a ∈ anc ++ [pid], rank c < rank a := by
        intro a ha
        rcases List.mem_append.mp ha with ha | ha
        · exact hcr.trans (hrk a ha)
        · rcases List.mem_singleton.mp ha with rfl
          exact hcr
      refine ⟨hck, hra, fun hcin => ?_⟩
      exact absurd (hra c hcin) (lt_irrefl _)
    have hlen' : w.length ≤ n + (anc ++ [pid]).length := by
      simp only [List.length_append, List.length_singleton]
      omega
    rcases seqNodes_spec IH (anc ++ [pid]) p.children hconds hanc'nd hanc'k hlen' with
      ⟨ns, hns, hmap, hiffs⟩
    refine ⟨Node.mk pid p.title ns, ?_, rfl, ?_⟩
    · simp [buildNode, hp, hns]
    · intro z
      simp only [nodeIds, List.mem_cons]
      rw [hiffs z]
      constructor
      · rintro (rfl | ⟨c, hcm, hr2⟩)
        · exact Reaches.refl z
        · exact reaches_trans (reaches_of_edge ⟨p, hp, hcm⟩) hr2
      · intro h
        rcases reaches_head_decomp h with rfl | ⟨c, hce, hr2⟩
        · exact Or.inl rfl
        · rcases hce with ⟨p2, hl2, hc2⟩
          have hpp : p2 = p := by
            rw [hp] at hl2
            exact (Option.some.inj hl2).symm
          exact Or.inr ⟨c, hpp ▸ hc2, hr2⟩

theorem rootIds_subset {w : Workspace} : ∀ r ∈ rootIds w, r ∈ keys w := by
  intro r hrm
  exact (List.mem_filter.mp hrm).1

theorem get_page_tree_spec {w : Workspace} (rank : String → Nat)
    (hnd : (keys w).Nodup) (hdg : noDangling w)
    (hr : ∀ e ∈ w, ∀ c ∈ e.2.children, rank c < rank e.1) :
    ∃ ns, get_page_tree w = some ns ∧ ns.map Node.nid = rootIds w ∧
      (∀ nd ∈ ns, ∀ z, z ∈ nodeIds nd ↔ Reaches w nd.nid z) ∧
      (∀ nd ∈ ns, ∀ z, z ∈ nodeIds nd → z ∈ keys w) := by
  have hbuild := buildNode_spec hnd hdg hr w.length
  have main : ∀ rs : List String, (∀ r ∈ rs, r ∈ keys w) →
      ∃ ns, seqNodes (fun c => buildNode w.length w c) rs = some ns ∧
        ns.map Node.nid = rs ∧
        (∀ nd ∈ ns, ∀ z, z ∈ nodeIds nd ↔ Reaches w nd.nid z) := by
    intro rs
    induction rs with
    | nil => intro _; exact ⟨[], rfl, rfl, by simp⟩
    | cons r rs ih =>
      intro hsub
      rcases hbuild r [] (hsub r (List.mem_cons_self _ _)) (List.nodup_nil)
        (by simp) (by simp) (by simp) (by simp) with ⟨nd, hnd2, hid, hiff⟩
      rcases ih (fun b hb => hsub b (List.mem_cons_of_mem _ hb)) with ⟨ns, hns, hmap, hiffs⟩
      refine ⟨nd :: ns, ?_, ?_, ?_⟩
      · simp [seqNodes, hnd2, hns]
      · simp [hmap, hid]
      · intro nd2 hnd3 z
        rcases List.mem_cons.mp hnd3 with rfl | hnd3
        · rw [hid]; exact hiff z
        · exact hiffs nd2 hnd3 z
  rcases main (rootIds w) rootIds_subset with ⟨ns, hns, hmap, hiffs⟩
  refine ⟨ns, ?_, hmap, hiffs, ?_⟩
  · rw [get_page_tree]
    exact hns
  · intro nd hndm z hz
    have hnid : nd.nid ∈ keys w := by
      have : nd.nid ∈ ns.map Node.nid := List.mem_map.mpr ⟨nd, hndm, rfl⟩
      rw [hmap] at this
      exact rootIds_subset _ this
    exact reaches_mem_keys hdg hnid ((hiffs nd hndm z).mp hz)

/-! Helper lemmas for the claim statements. -/

theorem lookupW_append_fresh {w : Workspace} {pid : String} (pg : Page)
    (h : pid ∉ keys w) : lookupW (w ++ [(pid, pg)]) pid = some pg := by
  induction w with
  | nil => simp [lookupW]
  | cons e rest ih =>
    simp only [keys_cons, List.mem_cons, not_or] at h
    rw [List.cons_append, lookupW, if_neg (fun he => h.1 he.symm)]
    exact ih h.2

theorem lookupW_append_other {w : Workspace} {pid y : String} (pg : Page)
    (h : y ≠ pid) : lookupW (w ++ [(pid, pg)]) y = lookupW w y := by
  induction w with
  | nil =>
    have hne : pid ≠ y := fun hh => h hh.symm
    simp [lookupW, hne]
  | cons e rest ih =>
    rw [List.cons_append, lookupW]
    by_cases he : e.1 = y
    · rw [if_pos he, lookupW, if_pos he]
    · rw [if_neg he, lookupW, if_neg he]
      exact ih

theorem lookupF_not_mem {form : List (String × String)} {k : String}
    (h : ∀ e ∈ form, e.1 ≠ k) : lookupF form k = none := by
  induction form with
  | nil => rfl
  | cons e rest ih =>
    rw [lookupF, if_neg (h e (List.mem_cons_self _ _))]
    exact ih (fun e2 he2 => h e2 (List.mem_cons_of_mem _ he2))

theorem lookupF_append_of_none {f1 f2 : List (String × String)} {k : String}
    (h : lookupF f1 k = none) : lookupF (f1 ++ f2) k = lookupF f2 k := by
  induction f1 with
  | nil => rfl
  | cons e rest ih =>
    rw [lookupF] at h
    by_cases he : e.1 = k
    · rw [if_pos he] at h
      cases h
    · rw [if_neg he] at h
      rw [List.cons_append, lookupF, if_neg he]
      exact ih h

theorem buildRow_step_eq :
    ∀ (form : List (String × String)) (acc : Row),
      (form.map (fun e => e.1)).Nodup →
      (∀ e ∈ form, e.1 ≠ "new_col" ∧ e.1 ≠ "new_val") →
      (∀ e ∈ form, e.1 ∉ acc.map (fun r => r.1)) →
      form.foldl
        (fun row e =>
          if e.1 = "new_col" ∨ e.1 = "new_val" then row
          else if pyStrip e.2 ≠ "" then dictSet row e.1 (pyStrip e.2) else row)
        acc =
      acc ++ (form.filter (fun e => decide (pyStrip e.2 ≠ ""))).map
        (fun e => (e.1, pyStrip e.2)) := by
  intro form
  induction form with
  | nil => intro acc _ _ _; simp
  | cons e form ih =>
    intro acc hnd hsp hacc
    have hsp1 := hsp e (List.mem_cons_self _ _)
    have hnotsp : ¬(e.1 = "new_col" ∨ e.1 = "new_val") := by
      rintro (h | h)
      · exact hsp1.1 h
      · exact hsp1.2 h
    have hnd2 : (e.1 :: form.map (fun e => e.1)).Nodup := by simpa using hnd
    rcases List.nodup_cons.mp hnd2 with ⟨hh, ht⟩
    have hspt : ∀ e2 ∈ form, e2.1 ≠ "new_col" ∧ e2.1 ≠ "new_val" :=
      fun e2 he2 => hsp e2 (List.mem_cons_of_mem _ he2)
    simp only [List.foldl_cons, if_neg hnotsp]
    by_cases hv : pyStrip e.2 ≠ ""
    · rw [if_pos hv]
      have hds : dictSet acc e.1 (pyStrip e.2) = acc ++ [(e.1, pyStrip e.2)] := by
        rw [dictSet, if_neg (hacc e (List.mem_cons_self _ _))]
      have hacc2 : ∀ e2 ∈ form, e2.1 ∉ (acc ++ [(e.1, pyStrip e.2)]).map (fun r => r.1) := by
        intro e2 he2
        simp only [List.map_append, List.mem_append, List.map_cons, List.map_nil,
          List.mem_singleton, not_or]
        refine ⟨hacc e2 (List.mem_cons_of_mem _ he2), ?_⟩
        intro heq
        exact hh (heq ▸ List.mem_map.mpr ⟨e2, he2, rfl⟩)
      rw [hds, ih (acc ++ [(e.1, pyStrip e.2)]) ht hspt hacc2,
        List.filter_cons, if_pos (by simpa using hv), List.map_cons]
      simp [List.append_assoc]
    · rw [if_neg hv, ih acc ht hspt (fun e2 he2 => hacc e2 (List.mem_cons_of_mem _ he2)),
        List.filter_cons, if_neg (by simpa using hv)]

/-! Claim theorems. -/

theorem wf_applyOp {w : Workspace} {op : Op} (hwf : wf w) (hfr : freshOk w op) :
    wf (applyOp w op) := by
  cases op with
  | addP pid title parent => exact wf_add_page hwf hfr.1 hfr.2
  | delP pid => exact wf_delete_page pid hwf

/-- C1 (as stated, claim refuted): a Workspace can be free of dangling child
references and yet a single `deletePage` creates a dangling reference,
because `delete_page` removes only the first occurrence of the deleted id
from each `children` list.  In `wDup` the page "a" lists "b" twice; deleting
"b" leaves one dangling "b" behind. -/
theorem claim1_counterexample :
    noDangling wDup ∧ ¬ noDangling (applyOps wDup [Op.delP "b"]) :=
  ⟨by decide, by decide⟩

/-- C1 (amended): starting from a well-formed Workspace — distinct keys, no
id referenced twice across all `children` lists, every child stored later
than its parent (all true of the default single-root Workspace, first
conjunct) — every sequence of `add_page` (with fresh ids) and `delete_page`
operations keeps the Workspace free of dangling child references after each
operation. -/
theorem claim1_amended :
    (∀ rootId : String, wf (homeWorkspace rootId)) ∧
    ∀ (w : Workspace) (ops : List Op), wf w → freshAlong w ops →
      ∀ n : Nat, noDangling (applyOps w (ops.take n)) := by
  constructor
  · intro rootId
    refine ⟨?_, ?_, ?_⟩
    · simp [homeWorkspace, keys]
    · simp [homeWorkspace, allChildren]
    · simp [homeWorkspace, ordered]
  · intro w ops
    induction ops generalizing w with
    | nil =>
      intro hwf _ n
      simpa [applyOps] using ordered_noDangling hwf.2.2
    | cons op ops ih =>
      intro hwf hfa n
      cases n with
      | zero => simpa [applyOps] using ordered_noDangling hwf.2.2
      | succ m =>
        rw [List.take_succ_cons]
        have hwf2 : wf (applyOp w op) := wf_applyOp hwf hfa.1
        have hrec := ih (applyOp w op) hwf2 hfa.2 m
        simpa [applyOps] using hrec

theorem claim1_witness :
    wf (homeWorkspace "r") ∧
    freshAlong (homeWorkspace "r") [Op.addP "n" "Notes" (some "r"), Op.delP "r"] ∧
    noDangling (applyOps (homeWorkspace "r")
      ([Op.addP "n" "Notes" (some "r"), Op.delP "r"].take 2)) :=
  ⟨by decide, by decide,
    claim1_amended.2 (homeWorkspace "r") _ (by decide) (by decide) 2⟩

/-- C2 (as stated, claim refuted): `wDup` is dangling-free and acyclic (the
rank `a ↦ 1, otherwise 0` decreases along every children link) and contains
"b", yet `delete_page` on "b" leaves "b" in the children list of the
surviving page "a" — the claim that the deleted id is removed from the
children list of any page that listed it fails. -/
theorem claim2_counterexample :
    noDangling wDup ∧
    (∀ e ∈ wDup, ∀ c ∈ e.2.children,
      (if c = "a" then 1 else 0) < (if e.1 = "a" then 1 else 0)) ∧
    "b" ∈ keys wDup ∧
    lookupW (delete_page wDup "b").1 "a" = some ⟨"A", "", ["b"], []⟩ ∧
    "b" ∉ keys (delete_page wDup "b").1 :=
  ⟨by decide, by decide, by decide, by decide, by decide⟩

/-- C2 (amended): in a well-formed Workspace (distinct keys, no id
referenced twice across children lists, children stored after their parent
— which implies dangling-free and acyclic), `delete_page x` keeps exactly
the ids not reachable from `x`, and every surviving page keeps its title,
content and database rows, its children list merely losing its occurrence
of `x` (order of the remaining entries preserved). -/
theorem claim2_amended (w : Workspace) (x : String) (hwf : wf w) (hx : x ∈ keys w) :
    (∀ z, z ∈ keys (delete_page w x).1 ↔ z ∈ keys w ∧ ¬ Reaches w x z) ∧
    (∀ y py, lookupW (delete_page w x).1 y = some py →
      ∃ p, lookupW w y = some p ∧ py.title = p.title ∧ py.content = p.content ∧
        py.database = p.database ∧ py.children = eraseFirst p.children x) := by
  rw [delete_page_spec hwf hx]
  constructor
  · intro z
    rw [mem_keys_removeIds, mem_desc_iff_reaches hwf.2.2 hwf.1]
  · intro y py hlpy
    have hy : y ∈ keys (removeIds w (desc w x)) := lookupW_mem_keys hlpy
    have hynd : y ∉ desc w x := (mem_keys_removeIds.mp hy).2
    rw [lookupW_removeIds_of_not_mem hynd] at hlpy
    cases hl : lookupW w y with
    | none =>
      rw [hl] at hlpy
      exact absurd hlpy (by simp)
    | some p =>
      rw [hl] at hlpy
      have hpy : py =
          { p with children := p.children.filter (fun c => decide (c ∉ desc w x)) } :=
        (Option.some.inj hlpy).symm
      refine ⟨p, rfl, by rw [hpy], by rw [hpy], by rw [hpy], ?_⟩
      rw [hpy]
      show p.children.filter _ = eraseFirst p.children x
      rw [eraseFirst_eq_filter x (children_nodup hwf.2.1 hl)]
      apply List.filter_congr
      intro c hcm
      simp only [decide_eq_decide]
      constructor
      · intro hnd2 he
        exact hnd2 (he ▸ mem_desc_self w x)
      · intro hne hcd
        have hrc : Reaches w x c := (mem_desc_iff_reaches hwf.2.2 hwf.1).mp hcd
        rcases reaches_last_decomp hrc with he | ⟨u, hru, hue⟩
        · exact hne he
        · rcases hue with ⟨pu, hlu, hcu⟩
          have huy : u = y := unique_parent hwf.1 hwf.2.1 hlu hl hcu hcm
          exact hynd ((mem_desc_iff_reaches hwf.2.2 hwf.1).mpr (huy ▸ hru))

theorem claim2_witness :
    wf wEx ∧ "a" ∈ keys wEx ∧ "b" ∉ keys (delete_page wEx "a").1 := by
  refine ⟨by decide, by decide, fun hmem => ?_⟩
  have h := ((claim2_amended wEx "a" (by decide) (by decide)).1 "b").mp hmem
  exact h.2 (reaches_of_edge ⟨⟨"A", "", ["b", "c"], []⟩, by decide, by decide⟩)

/-- C6: on an id that is no key of the Workspace, `update_page` and
`delete_page` return the Workspace unchanged, raise nothing, and perform no
`save_data` call (the saved flag is `false`, the save count is `0`). -/
theorem claim6 (w : Workspace) (pid title content : String) (hx : pid ∉ keys w) :
    update_page w pid title content = (w, false) ∧ delete_page w pid = (w, 0) := by
  constructor
  · simp [update_page, hx]
  · exact delete_page_not_mem hx

theorem claim6_witness :
    "zz" ∉ keys wEx ∧ update_page wEx "zz" "T" "C" = (wEx, false) ∧
    delete_page wEx "zz" = (wEx, 0) :=
  ⟨by decide, (claim6 wEx "zz" "T" "C" (by decide)).1,
    (claim6 wEx "zz" "T" "C" (by decide)).2⟩

/-- C3 (as stated, claim refuted): the stored title is not the input
string verbatim — `add_page` strips surrounding whitespace, so the page
created with title " Notes " is stored with title "Notes". -/
theorem claim3_counterexample :
    (add_page wEx "n" " Notes " none).2 = wEx ++ [("n", ⟨"Notes", "", [], []⟩)] ∧
    "Notes" ≠ " Notes " :=
  ⟨by decide, by decide⟩

/-- C3 (amended): `add_page` with a fresh id (modelling `uuid.uuid4()`,
which is a fresh non-key never guessable as a parent) returns the new id,
appends exactly one new key, stores under it a page with empty content,
children and rows whose title is the whitespace-stripped input ("Untitled"
when the input strips to empty), appends the new id to the parent's
children exactly when the parent names an existing page (an unknown or
absent parent is silently ignored), and leaves every other page
unchanged.  The hypothesis that the empty string is no key holds for every
real Workspace, whose keys are UUID strings. -/
theorem claim3_amended (w : Workspace) (pageId title : String) (parent : Option String)
    (hfr : pageId ∉ keys w) (hpar : ∀ p, parent = some p → p ≠ pageId)
    (hnok : "" ∉ keys w) :
    (add_page w pageId title parent).1 = pageId ∧
    keys (add_page w pageId title parent).2 = keys w ++ [pageId] ∧
    lookupW (add_page w pageId title parent).2 pageId =
      some ⟨titleOrUntitled title, "", [], []⟩ ∧
    (pyStrip title = "" → titleOrUntitled title = "Untitled") ∧
    (∀ y, y ≠ pageId →
      lookupW (add_page w pageId title parent).2 y =
        if parent = some y ∧ y ∈ keys w then
          (lookupW w y).map (fun pg => { pg with children := pg.children ++ [pageId] })
        else lookupW w y) := by
  cases parent with
  | none =>
    refine ⟨rfl, ?_, ?_, fun h => by simp [titleOrUntitled, h], ?_⟩
    · rw [add_page_eq_none, keys_append]
      rfl
    · rw [add_page_eq_none]
      exact lookupW_append_fresh _ hfr
    · intro y hy
      rw [add_page_eq_none, lookupW_append_other _ hy,
        if_neg (by rintro ⟨h, _⟩; cases h)]
  | some p =>
    have hpn : p ≠ pageId := hpar p rfl
    by_cases hcond : p ≠ "" ∧ p ∈ keys (w ++ [(pageId, ⟨titleOrUntitled title, "", [], []⟩)])
    · have hpk : p ∈ keys w := by
        have h2 := hcond.2
        rw [keys_append] at h2
        rcases List.mem_append.mp h2 with h2 | h2
        · exact h2
        · exact absurd (by simpa [keys] using h2) hpn
      refine ⟨rfl, ?_, ?_, fun h => by simp [titleOrUntitled, h], ?_⟩
      · rw [add_page_eq_some, if_pos hcond, keys_mapEntry, keys_append]
        rfl
      · rw [add_page_eq_some, if_pos hcond, lookupW_mapEntry,
          if_neg (fun h => hpn h.symm)]
        exact lookupW_append_fresh _ hfr
      · intro y hy
        rw [add_page_eq_some, if_pos hcond, lookupW_mapEntry]
        by_cases hyp : y = p
        · subst hyp
          rw [if_pos rfl, lookupW_append_other _ hy, if_pos ⟨rfl, hpk⟩]
        · rw [if_neg hyp, lookupW_append_other _ hy,
            if_neg (by rintro ⟨h, _⟩; exact hyp (Option.some.inj h).symm)]
    · refine ⟨rfl, ?_, ?_, fun h => by simp [titleOrUntitled, h], ?_⟩
      · rw [add_page_eq_some, if_neg hcond, keys_append]
        rfl
      · rw [add_page_eq_some, if_neg hcond]
        exact lookupW_append_fresh _ hfr
      · intro y hy
        rw [add_page_eq_some, if_neg hcond, lookupW_append_other _ hy]
        rw [if_neg ?_]
        rintro ⟨heq, hyk⟩
        have hpy : p = y := Option.some.inj heq
        subst hpy
        have hpk1 : p ∈ keys (w ++ [(pageId, ⟨titleOrUntitled title, "", [], []⟩)]) := by
          rw [keys_append]
          exact List.mem_append_left _ hyk
        have hpe : p = "" := by
          by_contra hpe
          exact hcond ⟨hpe, hpk1⟩
        exact hnok (hpe ▸ hyk)

theorem claim3_witness :
    "n" ∉ keys wEx ∧ ("" : String) ∉ keys wEx ∧
    keys (add_page wEx "n" "Notes" (some "r")).2 = keys wEx ++ ["n"] :=
  ⟨by decide, by decide,
    (claim3_amended wEx "n" "Notes" (some "r") (by decide)
      (fun p hp => by simp at hp; rw [← hp]; decide) (by decide)).2.1⟩

/-- C4: on a Workspace with distinct keys, no dangling child references
and acyclic children links (witnessed by a rank that strictly drops along
every parent-to-child link), `get_page_tree` succeeds, the returned roots
are exactly the ids absent from every children list in iteration order, a
root's tree contains exactly the ids reachable from it, and every id in
any returned node is a key of the Workspace. -/
theorem claim4 (w : Workspace) (rank : String → Nat)
    (hnd : (keys w).Nodup) (hdg : noDangling w)
    (hrk : ∀ e ∈ w, ∀ c ∈ e.2.children, rank c < rank e.1) :
    ∃ ns, get_page_tree w = some ns ∧
      ns.map Node.nid = rootIds w ∧
      (∀ nd ∈ ns, ∀ z, z ∈ nodeIds nd ↔ Reaches w nd.nid z) ∧
      (∀ nd ∈ ns, ∀ z, z ∈ nodeIds nd → z ∈ keys w) :=
  get_page_tree_spec rank hnd hdg hrk

theorem claim4_witness :
    (keys wEx).Nodup ∧ noDangling wEx ∧ (get_page_tree wEx).isSome = true := by
  refine ⟨by decide, by decide, ?_⟩
  rcases claim4 wEx (fun s => if s = "r" then 2 else if s = "a" then 1 else 0)
    (by decide) (by decide) (by decide) with ⟨ns, hns, _⟩
  rw [hns]
  rfl

/-- C5: `load_data` is total over the three persisted-input cases.  A
parsed file is returned as the Workspace with nothing written back; an
absent or unparsable file yields the fabricated Workspace with exactly one
page, keyed by the fresh root id, titled "Home", which is a root, and that
Workspace is immediately written back. -/
theorem claim5 (file : PersistedFile) (rootId : String) :
    (∀ w, file = PersistedFile.parsed w → load_data file rootId = (w, none)) ∧
    ((file = PersistedFile.absent ∨ file = PersistedFile.unparsable) →
      load_data file rootId = (homeWorkspace rootId, some (homeWorkspace rootId)) ∧
      keys (homeWorkspace rootId) = [rootId] ∧
      (lookupW (homeWorkspace rootId) rootId).map Page.title = some "Home" ∧
      rootIds (homeWorkspace rootId) = [rootId]) := by
  constructor
  · rintro w rfl
    rfl
  · rintro (rfl | rfl) <;>
      exact ⟨rfl, rfl, by simp [homeWorkspace, lookupW],
        by simp [rootIds, homeWorkspace, keys, allChildren]⟩

theorem claim5_witness :
    load_data PersistedFile.absent "root0" =
      (homeWorkspace "root0", some (homeWorkspace "root0")) ∧
    load_data (PersistedFile.parsed wEx) "root0" = (wEx, none) :=
  ⟨((claim5 PersistedFile.absent "root0").2 (Or.inl rfl)).1,
    (claim5 (PersistedFile.parsed wEx) "root0").1 wEx rfl⟩

/-- C7 (as stated, claim refuted): on an unknown page id the row-add route
surfaces no error at all — it performs no mutation and answers with the
same kind of response as everywhere else, a 302 redirect (here to the home
page), not a 4xx/5xx error that would signal the missing page. -/
theorem claim7_counterexample :
    "zz" ∉ keys wEx ∧
    add_db_row wEx "zz" [("A", "1")] = (wEx, ⟨302, "/"⟩) ∧
    ¬ Resp.isError (add_db_row wEx "zz" [("A", "1")]).2 :=
  ⟨by decide, by decide, by decide⟩

/-- C7 (amended): on an unknown page id the row-add route leaves the
Workspace untouched and responds with a 302 redirect to the home page — a
response distinct from the success path, which redirects to the page's
database view — but no error status is surfaced. -/
theorem claim7_amended (w : Workspace) (pid : String) (form : List (String × String))
    (hx : pid ∉ keys w) :
    add_db_row w pid form = (w, ⟨302, "/"⟩) ∧
    ¬ Resp.isError (add_db_row w pid form).2 ∧
    (∀ (w2 : Workspace) (pid2 : String) (form2 : List (String × String)),
      pid2 ∈ keys w2 →
      (add_db_row w2 pid2 form2).2 = ⟨302, "/page/" ++ pid2 ++ "/database"⟩) := by
  refine ⟨by simp [add_db_row, hx], ?_, ?_⟩
  · simp only [add_db_row, if_neg hx]
    show ¬ (400 ≤ 302)
    omega
  · intro w2 pid2 form2 h2
    simp [add_db_row, h2]

theorem claim7_witness :
    "zz" ∉ keys wEx ∧
    add_db_row wEx "zz" [("A", "1")] = (wEx, ⟨302, "/"⟩) ∧
    (add_db_row wEx "b" [("A", "1")]).2 ≠ (add_db_row wEx "zz" [("A", "1")]).2 :=
  ⟨by decide, (claim7_amended wEx "zz" [("A", "1")] (by decide)).1, by decide⟩

/-- C8 (as stated, claim refuted): the appended row does not hold the
submitted column-to-value pairs themselves — values are stored stripped of
surrounding whitespace, so submitting Status " Done " stores
("Status", "Done"), a different pair; and a field submitted through the
separate `new_col`/`new_val` inputs is stored even when its value strips to
empty, so not every empty-string-valued field is dropped. -/
theorem claim8_counterexample :
    lookupW (add_db_row wEx "b" [("Status", " Done ")]).1 "b" =
      some ⟨"B", "", [], [[("Status", "Done")]]⟩ ∧
    ("Status", "Done") ≠ (("Status", " Done ") : String × String) ∧
    lookupW (add_db_row wEx "c" [("new_col", "Owner"), ("new_val", "")]).1 "c" =
      some ⟨"C", "", [], [[("Owner", "")]]⟩ :=
  ⟨by decide, by decide, by decide⟩

/-- C8 (amended): adding a row to an existing page appends exactly one row
holding, in submission order, the submitted column-value pairs whose values
are non-empty after stripping, each stored with its value stripped (not
verbatim), dropping every ordinary field whose value strips to empty, and
leaving the earlier rows, the page's other fields and every other page
unchanged; a column submitted through the separate `new_col`/`new_val`
inputs is appended after the ordinary fields with both parts stripped, even
when its stripped value is empty.  The ordinary form fields carry distinct
keys (they come from a parsed form dictionary). -/
theorem claim8_amended (w : Workspace) (pid : String) (form : List (String × String))
    (pg : Page) (hl : lookupW w pid = some pg)
    (hkeys : (form.map (fun e => e.1)).Nodup)
    (hplain : ∀ e ∈ form, e.1 ≠ "new_col" ∧ e.1 ≠ "new_val") :
    lookupW (add_db_row w pid form).1 pid =
      some { pg with database := pg.database ++
        [(form.filter (fun e => decide (pyStrip e.2 ≠ ""))).map
          (fun e => (e.1, pyStrip e.2))] } ∧
    (∀ y, y ≠ pid → lookupW (add_db_row w pid form).1 y = lookupW w y) ∧
    (∀ col val : String, pyStrip col ≠ "" →
      pyStrip col ∉ form.map (fun e => e.1) →
      lookupW (add_db_row w pid (form ++ [("new_col", col), ("new_val", val)])).1 pid =
        some { pg with database := pg.database ++
          [(form.filter (fun e => decide (pyStrip e.2 ≠ ""))).map
              (fun e => (e.1, pyStrip e.2)) ++ [(pyStrip col, pyStrip val)]] }) := by
  have hmem : pid ∈ keys w := lookupW_mem_keys hl
  have hnc : lookupF form "new_col" = none :=
    lookupF_not_mem (fun e he => (hplain e he).1)
  have hnv : lookupF form "new_val" = none :=
    lookupF_not_mem (fun e he => (hplain e he).2)
  have hcol : pyStrip (formGet form "new_col") = "" := by
    rw [formGet, hnc]
    decide
  have hrow : buildRow form =
      (form.filter (fun e => decide (pyStrip e.2 ≠ ""))).map
        (fun e => (e.1, pyStrip e.2)) := by
    rw [buildRow, buildRow_step_eq form [] hkeys hplain (by simp)]
    rfl
  refine ⟨?_, ?_, ?_⟩
  · simp only [add_db_row, if_pos hmem]
    rw [lookupW_mapEntry, if_pos rfl, hl]
    simp [hcol, hrow]
  · intro y hy
    simp only [add_db_row, if_pos hmem]
    rw [lookupW_mapEntry, if_neg hy]
  · intro col val hcolne hnotin
    have hgetc : formGet (form ++ [("new_col", col), ("new_val", val)]) "new_col" = col := by
      rw [formGet, lookupF_append_of_none hnc]
      simp [lookupF]
    have hgetv : formGet (form ++ [("new_col", col), ("new_val", val)]) "new_val" = val := by
      rw [formGet, lookupF_append_of_none hnv]
      simp [lookupF]
    have hbr : buildRow (form ++ [("new_col", col), ("new_val", val)]) = buildRow form := by
      rw [buildRow, buildRow, List.foldl_append]
      simp
    have hfresh : pyStrip col ∉
        ((form.filter (fun e => decide (pyStrip e.2 ≠ ""))).map
          (fun e => (e.1, pyStrip e.2))).map (fun r => r.1) := by
      intro hmem2
      rw [List.map_map] at hmem2
      rcases List.mem_map.mp hmem2 with ⟨e, he, heq⟩
      refine hnotin (List.mem_map.mpr ⟨e, (List.mem_filter.mp he).1, ?_⟩)
      exact heq
    simp only [add_db_row, if_pos hmem]
    rw [lookupW_mapEntry, if_pos rfl, hl, hgetc, hgetv, if_pos hcolne, hbr, hrow,
      dictSet, if_neg hfresh]
    rfl

theorem claim8_witness :
    lookupW ((add_db_row ((add_db_row wEx "b" [("Status", "Done")]).1) "b"
      [("Status", ""), ("Owner", "Dana")]).1) "b" =
      some ⟨"B", "", [], [[("Status", "Done")], [("Owner", "Dana")]]⟩ := by
  have h1 := (claim8_amended wEx "b" [("Status", "Done")] ⟨"B", "", [], []⟩
    (by decide) (by decide) (by decide)).1
  have h2 := (claim8_amended ((add_db_row wEx "b" [("Status", "Done")]).1) "b"
    [("Status", ""), ("Owner", "Dana")] ⟨"B", "", [], [[("Status", "Done")]]⟩
    (by rw [h1]; decide) (by decide) (by decide)).1
  rw [h2]
  decide

/-- C9 (as stated, claim refuted): the code-fence flag is not toggled only
by lines consisting solely of a triple-backtick fence — any line whose
stripped form merely starts with three backticks toggles it.  The line
"```python" is consumed, opens the code block, and the line between the
fences is rendered escaped in the monospaced container. -/
theorem claim9_counterexample :
    (processLine false "```python").1 = true ∧
    "```python" ≠ "```" ∧
    render_content "```python\n<b>\n```" = "<pre><code>\n&lt;b&gt;\n\n</code></pre>" :=
  ⟨by decide, by decide, by decide⟩

/-- C9 (amended): the fence flag toggles exactly on lines whose stripped
form starts with a triple backtick; such lines are consumed, emitting only
the fence markup and never the line's text; while the flag is set, every
non-fence line is emitted escaped and verbatim (with a trailing newline)
inside the monospaced container, and is not treated as a checklist item or
paragraph. -/
theorem claim9_amended (c : Bool) (line : String) :
    ((processLine c line).1 ≠ c ↔ startsWithStr (pyStrip line) "```" = true) ∧
    (startsWithStr (pyStrip line) "```" = true →
      (processLine c line).2 = [if c then "</code></pre>" else "<pre><code>"]) ∧
    (startsWithStr (pyStrip line) "```" = false → c = true →
      (processLine c line).2 = [html_escape line ++ "\n"]) := by
  by_cases h : startsWithStr (pyStrip line) "```" = true
  · refine ⟨?_, fun _ => by simp [processLine, h], fun hf => ?_⟩
    · cases c <;> simp [processLine, h]
    · rw [hf] at h
      cases h
  · have hf : startsWithStr (pyStrip line) "```" = false := by
      cases hb : startsWithStr (pyStrip line) "```"
      · rfl
      · exact absurd hb h
    refine ⟨?_, fun ht => absurd ht h, fun _ hc => ?_⟩
    · simp only [processLine, hf, Bool.false_eq_true, if_false, iff_false]
      split_ifs <;> simp
    · subst hc
      simp [processLine, hf]

theorem claim9_witness :
    ((processLine true "<b>").1 ≠ true ↔
      startsWithStr (pyStrip "<b>") "```" = true) ∧
    (processLine true "<b>").2 = [html_escape "<b>" ++ "\n"] :=
  ⟨(claim9_amended true "<b>").1,
    (claim9_amended true "<b>").2.2 (by decide) rfl⟩

/-- C10: outside a code fence, a line starting with the six characters
"- [ ] " becomes a disabled unchecked checkbox labelled with the escaped
rest of the line; a line starting with "- [x] " or "- [X] " becomes a
disabled checked checkbox; every other non-fence line becomes its own
escaped paragraph.  The four concrete renderings of the claim hold. -/
theorem claim10 :
    (∀ line : String, startsWithStr (pyStrip line) "```" = false →
      (startsWithStr line "- [ ] " = true →
        processLine false line =
          (false, ["<label><input type=\"checkbox\" disabled> " ++
            html_escape (dropStr line 6) ++ "</label><br>"])) ∧
      (startsWithStr line "- [ ] " = false →
        (startsWithStr line "- [x] " = true ∨ startsWithStr line "- [X] " = true) →
        processLine false line =
          (false, ["<label><input type=\"checkbox\" checked disabled> " ++
            html_escape (dropStr line 6) ++ "</label><br>"])) ∧
      (startsWithStr line "- [ ] " = false → startsWithStr line "- [x] " = false →
        startsWithStr line "- [X] " = false →
        processLine false line = (false, ["<p>" ++ html_escape line ++ "</p>"]))) ∧
    render_content "- [ ] buy milk" =
      "<label><input type=\"checkbox\" disabled> buy milk</label><br>" ∧
    render_content "- [x] done" =
      "<label><input type=\"checkbox\" checked disabled> done</label><br>" ∧
    render_content "plain text" = "<p>plain text</p>" ∧
    render_content "```\n<b>\n```" = "<pre><code>\n&lt;b&gt;\n\n</code></pre>" := by
  refine ⟨?_, by decide, by decide, by decide, by decide⟩
  intro line hnf
  refine ⟨fun h1 => by simp [processLine, hnf, h1],
    fun h1 h2 => ?_,
    fun h1 h2 h3 => by simp [processLine, hnf, h1, h2, h3]⟩
  rcases h2 with h2 | h2 <;> simp [processLine, hnf, h1, h2]

theorem claim10_witness :
    startsWithStr (pyStrip "- [ ] buy milk") "```" = false ∧
    processLine false "- [ ] buy milk" =
      (false, ["<label><input type=\"checkbox\" disabled> buy milk</label><br>"]) := by
  refine ⟨by decide, ?_⟩
  have h := (claim10.1 "- [ ] buy milk" (by decide)).1 (by decide)
  exact h.trans (by decide)

end NotionApp